import Mathlib

/-!
Verification development for `apollo-link-json-api`.

The TypeScript sources under `src/` are shallowly embedded below:

* `src/jsonApiLink.ts` — `validateRequestMethodForOperationType`, the
  `PathBuilder` path-template compiler, `PathBuilderLookupValue`, the
  null-patch pass `insertNullsForAnyOmittedFields`, and the response
  classification of the `resolver`.
* `src/jsonApiTransformer.ts` — `findResource`,
  `_denormalizeRelationships` / `denormalizeRelationships`, and
  `flattenResource`.

JavaScript objects are modelled as association lists (insertion order
preserved, later assignments following `acc[k] = v` semantics), JavaScript
in-place mutation of the `__relationships_denormalizing` marker is modelled
as an explicitly threaded set of marked resource identifiers (object
identity coincides with identifier identity for every object reachable by
`findResource`, which always returns the first match), and recursion that
JavaScript bounds only by the mutable marker is given an explicit fuel
parameter, whose irrelevance above an explicit bound is proved.
-/

namespace JsonApi

/-- JSON-ish values, as produced by `response.json()` and manipulated by the
transformer and null-patch pass.  Objects are insertion-ordered association
lists. -/
inductive JVal where
  | null : JVal
  | bool : Bool → JVal
  | num : Int → JVal
  | str : String → JVal
  | arr : List JVal → JVal
  | obj : List (String × JVal) → JVal
deriving Repr

/-- JavaScript property assignment `acc[k] = v` on an insertion-ordered
association list: an existing key keeps its position and gets the new value,
a fresh key is appended. -/
def setField : List (String × JVal) → String → JVal → List (String × JVal)
  | [], k, v => [(k, v)]
  | (k', v') :: rest, k, v =>
      if k' = k then (k', v) :: rest else (k', v') :: setField rest k v

/-- JavaScript property read `o[k]`: the value at `k`, `none` when the key is
absent (i.e. `undefined`). -/
def getField : List (String × JVal) → String → Option JVal
  | [], _ => none
  | (k', v) :: rest, k => if k' = k then some v else getField rest k

/-- Spread-merge `\x7b...a, ...b\x7d`: assign every field of `b` over `a` in
order. -/
def mergeFields (a b : List (String × JVal)) : List (String × JVal) :=
  b.foldl (fun acc kv => setField acc kv.1 kv.2) a

/- ------------------------------------------------------------------ -/
/- `validateRequestMethodForOperationType` (src/jsonApiLink.ts:654-679) -/
/- ------------------------------------------------------------------ -/

/-- ASCII upper-casing of one character, as `String.prototype.toUpperCase`
acts on the ASCII range (HTTP verbs are ASCII). -/
def upChar (c : Char) : Char :=
  if 'a' ≤ c ∧ c ≤ 'z' then Char.ofNat (c.toNat - 32) else c

/-- `method.toUpperCase()` on ASCII strings. -/
def jsToUpper (s : String) : String := String.mk (s.data.map upChar)

/-- GraphQL top-level operation kinds (`OperationTypeNode`). -/
inductive OperationTypeNode where
  | query : OperationTypeNode
  | mutation : OperationTypeNode
  | subscription : OperationTypeNode
deriving DecidableEq, Repr

/-- The fixed verb list `SUPPORTED_HTTP_VERBS` of src/jsonApiLink.ts:654. -/
def SUPPORTED_HTTP_VERBS : List String :=
  ["GET", "POST", "PUT", "PATCH", "DELETE"]

/-- `validateRequestMethodForOperationType` (src/jsonApiLink.ts:656-679).
Throwing is modelled as `Except.error` carrying the error message. -/
def validateRequestMethodForOperationType (method : String)
    (operationType : OperationTypeNode) : Except String Unit :=
  match operationType with
  | .query =>
      if SUPPORTED_HTTP_VERBS.contains (jsToUpper method) then
        .ok ()
      else
        .error ("A \"query\" operation can only support \"GET\" requests but got \""
          ++ method ++ "\".")
  | .mutation =>
      if SUPPORTED_HTTP_VERBS.contains (jsToUpper method) then
        .ok ()
      else
        .error "\"mutation\" operations do not support that HTTP-verb"
  | .subscription =>
      .error "A \"subscription\" operation is not supported yet."


/- ------------------------------------------------------------ -/
/- `PathBuilder` (src/jsonApiLink.ts:416-521)                    -/
/- ------------------------------------------------------------ -/

/-- JavaScript values as seen by the path builder (`props` and everything
reachable from it).  `undef` is JavaScript `undefined`. -/
inductive PVal where
  | undefined : PVal
  | null : PVal
  | bool : Bool → PVal
  | num : Int → PVal
  | str : String → PVal
  | arr : List PVal → PVal
  | obj : List (String × PVal) → PVal
deriving Repr

/-- JavaScript property access `tmp[key]`: throws (`Except.error`) on
`undefined`/`null`, yields the field or `undefined` on objects, and
`undefined` on primitives (built-in properties of primitives are not
modelled). -/
def jsAccess : PVal → String → Except Unit PVal
  | .undefined, _ => .error ()
  | .null, _ => .error ()
  | .obj fields, k => .ok (((fields.find? (fun kv => kv.1 = k)).map Prod.snd).getD .undefined)
  | _, _ => .ok .undefined

/-- `PathBuilderLookupValue` (src/jsonApiLink.ts:514-521): descend the dotted
key path; an access on `undefined`/`null` throws. -/
def PathBuilderLookupValue : PVal → List String → Except Unit PVal
  | tmp, [] => .ok tmp
  | tmp, key :: remainingKeyPath => do
      PathBuilderLookupValue (← jsAccess tmp key) remainingKeyPath

mutual
/-- JavaScript `String(value)`; arrays render as their comma-joined elements
(`Array.prototype.toString`). -/
def jsString : PVal → String
  | .undefined => "undefined"
  | .null => "null"
  | .bool true => "true"
  | .bool false => "false"
  | .num n => toString n
  | .str s => s
  | .arr xs => String.intercalate "," (jsStringList xs)
  | .obj _ => "[object Object]"

/-- Stringify the elements of an array; `Array.prototype.toString` renders
`null`/`undefined` elements as the empty string. -/
def jsStringList : List PVal → List String
  | [] => []
  | .undefined :: rest => "" :: jsStringList rest
  | .null :: rest => "" :: jsStringList rest
  | v :: rest => jsString v :: jsStringList rest
end

/-- The test `typeof value === 'object' && value != null` deciding whether the
qs encoder applies (arrays are `typeof 'object'` in JavaScript). -/
def isStructuredObject : PVal → Bool
  | .obj _ => true
  | .arr _ => true
  | _ => false

mutual
/-- Modelled from the spec: the external `qs` collaborator's `stringify` for
one key/value pair — nested keys produce `a[b]=c`-style entries, array
elements are keyed by index, `undefined` values are skipped; percent-encoding
of reserved characters is not modelled (the repository treats `qs` as an
injected peer dependency). -/
def qsEntry (key : String) : PVal → List String
  | .undefined => []
  | .null => [key ++ "="]
  | .bool true => [key ++ "=true"]
  | .bool false => [key ++ "=false"]
  | .num n => [key ++ "=" ++ toString n]
  | .str s => [key ++ "=" ++ s]
  | .arr xs => qsEntryArr key 0 xs
  | .obj fields => qsEntryObj key fields

/-- Entries of an array value, keyed `key[i]`. -/
def qsEntryArr (key : String) (i : Nat) : List PVal → List String
  | [] => []
  | v :: rest =>
      qsEntry (key ++ "[" ++ toString i ++ "]") v ++ qsEntryArr key (i + 1) rest

/-- Entries of a nested object value, keyed `key[k]`. -/
def qsEntryObj (key : String) : List (String × PVal) → List String
  | [] => []
  | (k, v) :: rest => qsEntry (key ++ "[" ++ k ++ "]") v ++ qsEntryObj key rest
end

/-- Modelled from the spec: `qs.stringify(value)` for the structured values
the path builder hands to it (objects and arrays); entries joined by `&`. -/
def qsStringify : PVal → String
  | .obj fields => String.intercalate "&" (qsEntryObj' fields)
  | .arr xs => String.intercalate "&" (qsEntryArr' 0 xs)
  | _ => ""
where
  qsEntryObj' : List (String × PVal) → List String
    | [] => []
    | (k, v) :: rest => qsEntry k v ++ qsEntryObj' rest
  qsEntryArr' (i : Nat) : List PVal → List String
    | [] => []
    | v :: rest => qsEntry (toString i) v ++ qsEntryArr' (i + 1) rest

/-- One character of the class `[._a-zA-Z0-9]` of `PathBuilder.argReplacement`
(src/jsonApiLink.ts:424). -/
def isArgChar (c : Char) : Bool := c = '.' || c = '_' || c.isAlphanum

/-- Scan the characters following an opening brace: a run of `isArgChar`
characters closed by a brace yields the inner run and the remainder;
otherwise there is no placeholder match at this position. -/
def scanArg : List Char → Option (List Char × List Char)
  | [] => none
  | c :: cs =>
      if c = '\x7d' then some ([], cs)
      else if isArgChar c then (scanArg cs).map (fun p => (c :: p.1, p.2))
      else none

/-- `path.split(PathBuilder.argReplacement)`: JavaScript `String.split` with a
capturing regex — literal stretches alternate with matched placeholder bits,
empty literals included.  The fuel argument only bounds the recursion (every
step consumes at least one character, so `fuel = cs.length` never runs out);
it keeps the definition structurally recursive and hence kernel-evaluable. -/
def splitPathAux : Nat → List Char → List Char → List String
  | 0, acc, cs => [String.mk (acc.reverse ++ cs)]
  | _ + 1, acc, [] => [String.mk acc.reverse]
  | fuel + 1, acc, c :: cs =>
      if c = '\x7b' then
        match scanArg cs with
        | some (inner, rest) =>
            String.mk acc.reverse :: String.mk ('\x7b' :: (inner ++ ['\x7d'])) ::
              splitPathAux fuel [] rest
        | none => splitPathAux fuel (c :: acc) cs
      else splitPathAux fuel (c :: acc) cs

/-- Split a path template into its literal and placeholder bits. -/
def splitPath (path : String) : List String :=
  splitPathAux path.data.length [] path.data

/-- `path.indexOf('?')`: the index of the first question mark, `-1` when
absent. -/
def indexOfQ (path : String) : Int :=
  match path.data.findIdx? (fun c => c = '?') with
  | some i => (i : Int)
  | none => -1

/-- JavaScript `"a.b".split('.')`. -/
def splitDotAux : List Char → List Char → List String
  | acc, [] => [String.mk acc.reverse]
  | acc, c :: cs =>
      if c = '.' then String.mk acc.reverse :: splitDotAux [] cs
      else splitDotAux (c :: acc) cs

/-- Split a placeholder's inner text on dots into the dotted key path. -/
def splitDot (s : String) : List String := splitDotAux [] s.data

/-- A compiled chunk of `PathBuilder.replacerForPath`'s `chunkActions`: a raw
string bit, the `true` marker enabling the qs encoder, or a replacement
function for a dotted key path. -/
inductive Chunk where
  | lit : String → Chunk
  | qsFlag : Chunk
  | lookup : List String → Chunk
deriving Repr

/-- The `pathBits.reduce` of `PathBuilder.replacerForPath`
(src/jsonApiLink.ts:446-493): classify each bit, tracking the processed
character count and whether the query string has begun; the qs-enabling
marker is appended after the first raw bit that reaches the index of the
first question mark. -/
def buildChunksAux (qIdx : Int) : List String → Nat → Bool → List Chunk
  | [], _, _ => []
  | bit :: rest, processedCount, hasBegunQuery =>
      if bit = "" ∨ bit = "\x7b\x7d" then
        buildChunksAux qIdx rest (processedCount + bit.length) hasBegunQuery
      else
        let nextIndex := processedCount + bit.length
        if bit.data.head? = some '\x7b' ∧ bit.data.getLast? = some '\x7d' then
          Chunk.lookup (splitDot (String.mk ((bit.data.drop 1).dropLast))) ::
            buildChunksAux qIdx rest nextIndex hasBegunQuery
        else if !hasBegunQuery ∧ (nextIndex : Int) ≥ qIdx then
          Chunk.lit bit :: Chunk.qsFlag :: buildChunksAux qIdx rest nextIndex true
        else
          Chunk.lit bit :: buildChunksAux qIdx rest nextIndex hasBegunQuery

/-- Compile a path template into its chunk list. -/
def buildChunks (path : String) : List Chunk :=
  buildChunksAux (indexOfQ path) (splitPath path) 0 false

/-- Run the compiled chunks over `props` (the reduce at
src/jsonApiLink.ts:495-508 together with the per-chunk action of lines
456-484).  The static `PathBuilder.warnTable` is threaded explicitly; the
result is the built string, the updated warn table, and the keys for which a
warning was emitted during this run (the `console.warn` calls), in order. -/
def runChunks (path : String) (props : PVal) :
    List Chunk → Bool → List String → String × List String × List String
  | [], _, warnTable => ("", warnTable, [])
  | Chunk.lit s :: rest, hasEnteredQuery, warnTable =>
      let r := runChunks path props rest hasEnteredQuery warnTable
      (s ++ r.1, r.2)
  | Chunk.qsFlag :: rest, _, warnTable => runChunks path props rest true warnTable
  | Chunk.lookup keyPath :: rest, hasEnteredQuery, warnTable =>
      match PathBuilderLookupValue props keyPath with
      | .ok value =>
          let piece :=
            if !hasEnteredQuery || !isStructuredObject value then jsString value
            else qsStringify value
          let r := runChunks path props rest hasEnteredQuery warnTable
          (piece ++ r.1, r.2)
      | .error () =>
          let key := path ++ "|" ++ String.intercalate "." keyPath
          if warnTable.contains key then
            let r := runChunks path props rest hasEnteredQuery warnTable
            ("" ++ r.1, r.2)
          else
            let r := runChunks path props rest hasEnteredQuery (key :: warnTable)
            ("" ++ r.1, r.2.1, key :: r.2.2)

/-- `PathBuilder.replacerForPath(path)(props)` (the memoisation cache is
irrelevant for a pure function): the built path, the updated warn table and
the warnings emitted. -/
def replacerForPath (path : String) (props : PVal) (warnTable : List String) :
    String × List String × List String :=
  runChunks path props (buildChunks path) false warnTable

/-- The warn key recorded for a failed unpacking of `keyPath` in `path`
(`[path, _keyPath.join('.')].join('|')`). -/
def warnKey (path : String) (keyPath : List String) : String :=
  path ++ "|" ++ String.intercalate "." keyPath


/- ------------------------------------------------------------ -/
/- `jsonApiTransformer` (src/jsonApiTransformer.ts)              -/
/- ------------------------------------------------------------ -/

/-- A JSON:API resource identifier: the only stable identity; two resources
are the same entity iff `id` and `type` both match exactly. -/
structure ResourceIdentifier where
  id : String
  type : String
deriving DecidableEq, Repr

/-- The `data` member of a relationship envelope: a single identifier or an
array of identifiers. -/
inductive RelationshipData where
  | one : ResourceIdentifier → RelationshipData
  | many : List ResourceIdentifier → RelationshipData
deriving Repr

/-- A relationship envelope `\x7blinks?, data?, meta?\x7d`. -/
structure RelationshipInfo where
  links? : Option JVal := none
  data? : Option RelationshipData := none
  meta? : Option JVal := none
deriving Repr

/-- The non-`relationships` fields of a resource object.  `denormalizing`
models the presence of the `__relationships_denormalizing` own-property
(`false` = the property is absent, as on freshly parsed JSON). -/
structure ResourceCore where
  typename? : Option String := none
  id : String
  type : String
  attributes? : Option (List (String × JVal)) := none
  links? : Option JVal := none
  meta? : Option JVal := none
  denormalizing : Bool := false
deriving Repr

/-- A JSON:API resource object.  `relationships? = none` models an absent
`relationships` member (an empty object is `some []`, which JavaScript still
treats as truthy). -/
structure Resource extends ResourceCore where
  relationships? : Option (List (String × RelationshipInfo)) := none
deriving Repr

/-- The identifier of a resource. -/
def Resource.ident (r : Resource) : ResourceIdentifier := ⟨r.id, r.type⟩

/-- `findResource` (src/jsonApiTransformer.ts:81-88): the first resource of
the list whose `id` and `type` both equal the identifier's. -/
def findResource (i : ResourceIdentifier) (resources : List Resource) :
    Option Resource :=
  resources.find? (fun r => r.id == i.id && r.type == i.type)

/-- A bare identifier used in place of an unresolvable resource
(`findResource(item, allResources) || item`). -/
def identAsResource (i : ResourceIdentifier) : Resource :=
  { id := i.id, type := i.type }

/-- The view of a live resource object after the marking mutations recorded
in `marked`: `data.__relationships_denormalizing = true` sets the property on
the shared object, which the explicit `marked` set models by identifier
(object identity coincides with identifier identity for every object
`findResource` can return, since it always returns the first match). -/
def viewAfter (marked : List ResourceIdentifier) (r : Resource) : Resource :=
  if r.ident ∈ marked then { r with denormalizing := true } else r

mutual
/-- The value of one relationship after `_denormalizeRelationships`
(src/jsonApiTransformer.ts:99-115): `null` when the envelope had no `data`,
otherwise the expanded resource(s) — the envelope itself is dropped because
the code keeps only `applyToData(...)(related).data`. -/
inductive DSlot where
  | dnull : DSlot
  | one : DRes → DSlot
  | many : List DRes → DSlot

/-- A resource produced by `_denormalizeRelationships`: either an object
returned unchanged by the guard (`raw`, carrying its marker state), or the
copy `\x7b...data, relationships\x7d` built after the marking mutation
(`node core slots`, whose fields are `core` with `denormalizing := true`
already applied at the construction site and whose relationships are
`slots`). -/
inductive DRes where
  | raw : Resource → DRes
  | node : ResourceCore → List (String × DSlot) → DRes
end

/-- The relationships of a denormalized resource (`none` on a guard-returned
raw object, whose `relationships` member keeps its original envelopes). -/
def DRes.slotOf : DRes → String → Option DSlot
  | .raw _, _ => none
  | .node _ slots, k => (slots.find? (fun kv => kv.1 = k)).map Prod.snd

/-- The `__relationships_denormalizing` marker visible on a denormalized
resource. -/
def DRes.marker : DRes → Bool
  | .raw r => r.denormalizing
  | .node core _ => core.denormalizing

mutual
/-- `_denormalizeRelationships` (src/jsonApiTransformer.ts:90-117), with the
marker mutations threaded as the `marked` identifier set and the recursion
given explicit fuel (the JavaScript recursion is bounded only by the marker;
fuel-irrelevance above `allResources.length + 1` is proved below).  Guard:
a resource without `relationships`, or already marked, is returned as-is
(with its visible marker state); otherwise it is marked and every
relationship with present `data` is expanded via `findResource`, falling
back to the bare identifier. -/
def _denormalizeRelationships :
    Nat → List Resource → Resource → List ResourceIdentifier →
      DRes × List ResourceIdentifier
  | 0, _, data, marked => (.raw (viewAfter marked data), marked)
  | fuel + 1, allResources, data, marked =>
      match data.relationships? with
      | none => (.raw (viewAfter marked data), marked)
      | some rels =>
          if data.denormalizing || decide (data.ident ∈ marked) then
            (.raw (viewAfter marked data), marked)
          else
            let r := denormRels fuel allResources rels (data.ident :: marked)
            (.node { data.toResourceCore with denormalizing := true } r.1, r.2)
termination_by fuel _ _ _ => (fuel, 0, 0)

/-- The `mapObject(data.relationships, ...)` body: each relationship with
absent `data` becomes `null`; otherwise the identifier(s) are looked up and
recursively denormalized, threading the marker state left to right. -/
def denormRels :
    Nat → List Resource → List (String × RelationshipInfo) →
      List ResourceIdentifier →
      List (String × DSlot) × List ResourceIdentifier
  | _, _, [], marked => ([], marked)
  | fuel, allResources, (relationshipName, related) :: rest, marked =>
      match related.data? with
      | none =>
          let r := denormRels fuel allResources rest marked
          ((relationshipName, .dnull) :: r.1, r.2)
      | some (.one i) =>
          let d := _denormalizeRelationships fuel allResources
            ((findResource i allResources).getD (identAsResource i)) marked
          let r := denormRels fuel allResources rest d.2
          ((relationshipName, .one d.1) :: r.1, r.2)
      | some (.many is) =>
          let ds := denormIdList fuel allResources is marked
          let r := denormRels fuel allResources rest ds.2
          ((relationshipName, .many ds.1) :: r.1, r.2)
termination_by fuel _ rels _ => (fuel, 2, sizeOf rels)

/-- `related.data.map(item => _denormalizeRelationships(findResource(item,
allResources) || item, allResources))`, threading the marker state. -/
def denormIdList :
    Nat → List Resource → List ResourceIdentifier → List ResourceIdentifier →
      List DRes × List ResourceIdentifier
  | _, _, [], marked => ([], marked)
  | fuel, allResources, i :: is, marked =>
      let d := _denormalizeRelationships fuel allResources
        ((findResource i allResources).getD (identAsResource i)) marked
      let r := denormIdList fuel allResources is d.2
      (d.1 :: r.1, r.2)
termination_by fuel _ is _ => (fuel, 1, sizeOf is)
end

/-- `denormalizeRelationships` (src/jsonApiTransformer.ts:119-121):
denormalize `data` against `[data, ...included]`, starting from the given
marker state (fresh on the first resource of a response; the fuel
`allResources.length + 1` is sufficient, as proved below). -/
def denormalizeRelationships (data : Resource) (included : List Resource)
    (marked : List ResourceIdentifier := []) :
    DRes × List ResourceIdentifier :=
  _denormalizeRelationships (included.length + 2) (data :: included) data marked

/-- The number of distinct resource identifiers of `allResources` that are
not yet marked: the measure that every marking step strictly decreases, used
to state that the fuel of `_denormalizeRelationships` is irrelevant once it
exceeds this bound (i.e. the JavaScript recursion terminates). -/
def unmarkedCount (all : List Resource) (m : List ResourceIdentifier) : Nat :=
  (((all.map Resource.ident).dedup).filter (fun i => decide (i ∉ m))).length

/-- The resource `r` directly references the identifier `i` through one of
its relationships. -/
def referencesIdent (r : Resource) (i : ResourceIdentifier) : Prop :=
  ∃ rels, r.relationships? = some rels ∧
    ∃ k rel, (k, rel) ∈ rels ∧
      (rel.data? = some (.one i) ∨
       ∃ is, rel.data? = some (.many is) ∧ i ∈ is)

/-- The resource relates to the identifier `i` directly or transitively
through the resources resolvable in `all`. -/
inductive RelatesTransitively (all : List Resource) :
    Resource → ResourceIdentifier → Prop where
  | direct {r i} : referencesIdent r i → RelatesTransitively all r i
  | step {r j r' i} : referencesIdent r j → findResource j all = some r' →
      RelatesTransitively all r' i → RelatesTransitively all r i

/-- The fields of an object value (empty for non-objects). -/
def JVal.fieldsOf : JVal → List (String × JVal)
  | .obj fields => fields
  | _ => []

/- ------------------------------------------------------------ -/
/- Null-patch pass (src/jsonApiLink.ts:252-398)                  -/
/- ------------------------------------------------------------ -/

/-- A GraphQL selection (`SelectionSetNode.selections` entries): a field
(with result alias, a possible `@jsonapi` directive, and an optional nested
selection set), an inline fragment, or a named fragment spread. -/
inductive Selection where
  | field : String → Option String → Bool → Option (List Selection) → Selection
  | inlineFragment : List Selection → Selection
  | fragmentSpread : String → Selection

/-- The fragment map: named fragments' selection sets.  `checkDocument`
guarantees every spread resolves; an unresolvable name is modelled as the
empty selection set. -/
def FragmentMap := List (String × List Selection)

/-- Look a fragment up in the map. -/
def FragmentMap.lookupSels (fm : FragmentMap) (n : String) : List Selection :=
  (fm.find? (fun kv => kv.1 = n)).map Prod.snd |>.getD []

/-- The `typeof value === 'object' && value != null` test of the null-patch
pass. -/
def JVal.isObjectLike : JVal → Bool
  | .obj _ => true
  | .arr _ => true
  | _ => false

mutual
/-- `insertNullsForAnyOmittedFields` (src/jsonApiLink.ts:327-398), as a pure
function on the patched value.  A `none` selection set, or a `null` /
number / boolean / string value, is left untouched; an array is patched
element-wise against the same selection set; an object is walked selection
by selection.  Fragment-spread expansion is given fuel (GraphQL validation
forbids fragment cycles, so any fuel at least the spread-nesting depth is
exact). -/
def insertNullsForAnyOmittedFields :
    Nat → FragmentMap → Option (List Selection) → JVal → JVal
  | _, _, none, current => current
  | _, _, some _, JVal.null => JVal.null
  | _, _, some _, JVal.bool b => JVal.bool b
  | _, _, some _, JVal.num n => JVal.num n
  | _, _, some _, JVal.str s => JVal.str s
  | fuel, fm, some sels, JVal.arr xs =>
      JVal.arr (insertNullsList fuel fm sels xs)
  | fuel, fm, some sels, JVal.obj fields =>
      goSelections fuel fm sels (JVal.obj fields)
termination_by fuel _ sels? v => (fuel, sizeOf sels?, sizeOf v, 1)

/-- The element-wise array walk (`current.forEach`). -/
def insertNullsList :
    Nat → FragmentMap → List Selection → List JVal → List JVal
  | _, _, _, [] => []
  | fuel, fm, sels, x :: xs =>
      insertNullsForAnyOmittedFields fuel fm (some sels) x ::
        insertNullsList fuel fm sels xs
termination_by fuel _ sels xs => (fuel, 1 + sizeOf sels, 1 + sizeOf xs, 0)

/-- The `currentSelectionSet.selections.forEach` loop, threading the
mutations of `current`. -/
def goSelections :
    Nat → FragmentMap → List Selection → JVal → JVal
  | _, _, [], current => current
  | fuel, fm, node :: rest, current =>
      goSelections fuel fm rest (applySelection fuel fm node current)
termination_by fuel _ sels current => (fuel, 1 + sizeOf sels, sizeOf current, 0)

/-- One selection applied to `current`: inline fragments and fragment
spreads substitute their selection set; a field named `__typename` is
exempt; a missing field is patched to an explicit `null`; a present
object-like field value with a nested selection set is patched recursively;
anything else is left alone.  The selection loop only runs on objects, so a
non-object `current` is returned unchanged. -/
def applySelection :
    Nat → FragmentMap → Selection → JVal → JVal
  | fuel, fm, .inlineFragment sub, current =>
      insertNullsForAnyOmittedFields fuel fm (some sub) current
  | 0, _, .fragmentSpread _, current => current
  | fuel + 1, fm, .fragmentSpread n, current =>
      insertNullsForAnyOmittedFields fuel fm (some (fm.lookupSels n)) current
  | fuel, fm, .field name _ _ subsel?, current =>
      match current with
      | JVal.obj fields =>
          if name = "__typename" then JVal.obj fields
          else
            match getField fields name with
            | none => JVal.obj (setField fields name JVal.null)
            | some value =>
                if value.isObjectLike && subsel?.isSome then
                  JVal.obj (setField fields name
                    (insertNullsForAnyOmittedFields fuel fm subsel? value))
                else JVal.obj fields
      | other => other
termination_by fuel _ node current => (fuel, sizeOf node, 1 + sizeOf current, 2)
end

mutual
/-- Value extension order: `w` extends `v` when it has the same shape and at
least `v`'s object fields, recursively.  The null-patch pass only grows
values along this order, which is what makes it idempotent. -/
inductive JLe : JVal → JVal → Prop where
  | null : JLe .null .null
  | bool (b : Bool) : JLe (.bool b) (.bool b)
  | num (n : Int) : JLe (.num n) (.num n)
  | str (s : String) : JLe (.str s) (.str s)
  | arr {xs ys : List JVal} : List.Forall₂ JLe xs ys → JLe (.arr xs) (.arr ys)
  | obj {f g : List (String × JVal)} :
      (∀ k, OptFieldLe (getField f k) (getField g k)) → JLe (.obj f) (.obj g)

/-- Field-wise form of the extension order: an absent field is unconstrained,
a present field must stay present and grow. -/
inductive OptFieldLe : Option JVal → Option JVal → Prop where
  | none (o : Option JVal) : OptFieldLe none o
  | some {v w : JVal} : JLe v w → OptFieldLe (some v) (some w)
end

/-- The fields kept by `flattenResource`'s rest-spread: the destructuring
`\x7battributes, relationships, links, ...restResource\x7d` removes exactly
`attributes`, `relationships` and `links`, so `__typename`, `id`, `type`,
`meta` and a set `__relationships_denormalizing` property all remain (the
relative key order of the model is fixed; JavaScript preserves the original
insertion order, which the claims never depend on). -/
def restFields (c : ResourceCore) : List (String × JVal) :=
  (match c.typename? with
   | some t => [("__typename", JVal.str t)]
   | none => []) ++
  [("id", JVal.str c.id), ("type", JVal.str c.type)] ++
  (match c.meta? with
   | some m => [("meta", m)]
   | none => []) ++
  (if c.denormalizing then [("__relationships_denormalizing", JVal.bool true)]
   else [])

/-- The `...attributes` spread (`undefined` spreads as nothing). -/
def attrFields (c : ResourceCore) : List (String × JVal) :=
  c.attributes?.getD []

/-- A raw relationship `data` member rendered as plain JSON. -/
def relDataToJVal : RelationshipData → JVal
  | .one i => .obj [("id", .str i.id), ("type", .str i.type)]
  | .many is => .arr (is.map (fun i => .obj [("id", .str i.id), ("type", .str i.type)]))

/-- `flattenResource` applied to a raw relationship envelope (which happens
for guard-returned resources whose `relationships` member still holds
envelopes): the envelope is destructured like a resource, so its `links` are
dropped and its `data`/`meta` members survive unchanged. -/
def flattenEnvelope (related : RelationshipInfo) : JVal :=
  .obj ((match related.data? with
         | none => []
         | some d => [("data", relDataToJVal d)]) ++
        (match related.meta? with
         | none => []
         | some m => [("meta", m)]))

mutual
/-- `flattenResource` (src/jsonApiTransformer.ts:53-79) on a denormalized
resource: without relationships the result is `\x7b...rest,
...attributes\x7d`; with relationships each `null` value is kept, each array
is flattened element-wise, each single value is flattened, and the result is
`\x7b...rest, ...attributes, ...flattenedRelationships\x7d`. -/
def flattenResource : DRes → JVal
  | .node core slots =>
      .obj (mergeFields
        (mergeFields (restFields core) (attrFields core))
        (flattenSlots slots))
  | .raw r =>
      match r.relationships? with
      | none =>
          .obj (mergeFields (restFields r.toResourceCore)
            (attrFields r.toResourceCore))
      | some rels =>
          .obj (mergeFields
            (mergeFields (restFields r.toResourceCore)
              (attrFields r.toResourceCore))
            (rels.map (fun kv => (kv.1, flattenEnvelope kv.2))))

/-- The `mapObject(relationships, ...)` body of `flattenResource`. -/
def flattenSlots : List (String × DSlot) → List (String × JVal)
  | [] => []
  | (k, .dnull) :: rest => (k, JVal.null) :: flattenSlots rest
  | (k, .one d) :: rest => (k, flattenResource d) :: flattenSlots rest
  | (k, .many ds) :: rest => (k, .arr (flattenList ds)) :: flattenSlots rest

/-- `related.map(flattenResource)`. -/
def flattenList : List DRes → List JVal
  | [] => []
  | d :: ds => flattenResource d :: flattenList ds
end

/-- The flattened value of one relationship slot: `null` stays `null`, an
array of resources flattens element-wise, a single resource flattens
directly. -/
def DSlot.flatValue : DSlot → JVal
  | .dnull => .null
  | .one d => flattenResource d
  | .many ds => .arr (flattenList ds)

/- ------------------------------------------------------------ -/
/- Response classification of `resolver`                         -/
/- (src/jsonApiLink.ts:899-957)                                  -/
/- ------------------------------------------------------------ -/

/-- `applyNormalizer` (src/jsonApiTransformer.ts:178-183):
`\x7b__typename: normalizer(resource.type), ...resource\x7d` — the spread
wins, so a resource that already carries `__typename` keeps it and the
normalized name is used only when none was present. -/
def applyNormalizer (tnn : String → String) (r : Resource) : Resource :=
  match r.typename? with
  | some _ => r
  | none => { r with typename? := some (tnn r.type) }

/-- The `data` member of a parsed response body: a single resource object or
an array of resource objects. -/
inductive BodyData where
  | one : Resource → BodyData
  | many : List Resource → BodyData

/-- The members of the parsed JSON:API body that the success path consumes
(`data` and `included`); with `includeJsonapi` off the other members are
discarded by the final `.then` projection of the transformer. -/
structure JsonApiBody where
  data : BodyData
  included : List Resource := []

/-- `data.map(obj => denormalizeRelationships(obj, rest))` for an array
`data` member: element-wise left to right, the marker mutations on the
shared `included` objects persisting across elements (threaded `marked`
state). -/
def denormDataList (included : List Resource) :
    List Resource → List ResourceIdentifier → List DRes × List ResourceIdentifier
  | [], marked => ([], marked)
  | r :: rs, marked =>
      let d := denormalizeRelationships r included marked
      let t := denormDataList included rs d.2
      (d.1 :: t.1, t.2)

/-- The denormalized `data` member. -/
inductive DBodyData where
  | one : DRes → DBodyData
  | many : List DRes → DBodyData

/-- `applyToData(denormalizeRelationships)` on the body. -/
def denormBody (b : JsonApiBody) : DBodyData :=
  match b.data with
  | .one r => .one (denormalizeRelationships r b.included).1
  | .many rs => .many (denormDataList b.included rs []).1

/-- `jsonapiResponseTransformer` (src/jsonApiTransformer.ts:259-283) with
`includeJsonapi` off, on an already parsed body: normalize `__typename` on
the `included` and `data` resources, denormalize the relationships of each
`data` resource, flatten each `data` resource, and project the `data`
member (the two `applyToJsonapiFullResponse` stages are the identity when
no `jsonapiFullResponse` member was installed). -/
def jsonapiResponseTransformer (tnn : String → String) (b : JsonApiBody) : JVal :=
  let nb : JsonApiBody :=
    { data := match b.data with
              | .one r => .one (applyNormalizer tnn r)
              | .many rs => .many (rs.map (applyNormalizer tnn)),
      included := b.included.map (applyNormalizer tnn) }
  match denormBody nb with
  | .one d => flattenResource d
  | .many ds => .arr (flattenList ds)

/-- An HTTP response as the resolver's result classification consumes it:
the `ok` flag, the numeric status, the `Content-Length: 0` test, and the
parsed JSON:API body (what `response.json()` would produce; only read on
the `ok` non-no-content branch). -/
structure HttpResponse where
  ok : Bool
  status : Nat
  contentLength0 : Bool := false
  body : JsonApiBody := { data := .many [] }

/-- The error thrown by `rethrowServerSideError` for a non-`ok` response
other than 404 (surfaced by apollo-link-error as a network error); the
classification only depends on the status code kept here. -/
structure ServerError where
  statusCode : Nat

/-- The result classification of `resolver` (src/jsonApiLink.ts:899-942):
an `ok` response with status 204 or `Content-Length: 0` yields the empty
object; any other `ok` response runs the JSON:API transformer on its body;
a non-`ok` response with status 404 yields `null` instead of throwing;
every other non-`ok` response throws a server-side error. -/
def resolveFetchResult (tnn : String → String) (resp : HttpResponse) :
    Except ServerError JVal :=
  if resp.ok then
    if resp.status == 204 || resp.contentLength0 then .ok (.obj [])
    else .ok (jsonapiResponseTransformer tnn resp.body)
  else if resp.status == 404 then .ok .null
  else .error { statusCode := resp.status }

/-- Execution of an operation's fetch nodes: graphql-anywhere invokes
`resolver` once per `@jsonapi` field; a thrown error rejects the whole
operation, otherwise every node's result lands at its position in the
response tree. -/
def runFetchNodes (tnn : String → String) :
    List HttpResponse → Except ServerError (List JVal)
  | [] => .ok []
  | resp :: rest =>
      match resolveFetchResult tnn resp with
      | .error e => .error e
      | .ok v =>
          match runFetchNodes tnn rest with
          | .error e => .error e
          | .ok vs => .ok (v :: vs)

end JsonApi

namespace JsonApi

/-- Reading a field just written by `setField`. -/
theorem getField_setField_self (l : List (String × JVal)) (k : String) (v : JVal) :
    getField (setField l k v) k = some v := by
  induction l with
  | nil => simp [setField, getField]
  | cons kv rest ih =>
      cases kv with
      | mk k0 v0 =>
          by_cases h : k0 = k
          · simp [setField, getField, h]
          · simp [setField, getField, h, ih]

/-- Reading another field after `setField`. -/
theorem getField_setField_other (l : List (String × JVal)) (k k' : String)
    (v : JVal) (hne : k' ≠ k) :
    getField (setField l k v) k' = getField l k' := by
  have hne' : ¬(k = k') := fun hh => hne hh.symm
  induction l with
  | nil => simp [setField, getField, hne']
  | cons kv rest ih =>
      cases kv with
      | mk k0 v0 =>
          by_cases h : k0 = k
          · subst h
            simp [setField, getField, hne', hne]
          · by_cases h2 : k0 = k'
            · simp [setField, getField, h, h2, hne]
            · simp [setField, getField, h, h2, ih]

/-- A spread step: merging `x :: rest` assigns `x` first. -/
theorem mergeFields_cons (a : List (String × JVal)) (x : String × JVal)
    (rest : List (String × JVal)) :
    mergeFields a (x :: rest) = mergeFields (setField a x.1 x.2) rest := rfl

/-- A field absent from the overriding object reads through the base. -/
theorem getField_mergeFields_of_not_mem (a b : List (String × JVal)) (k : String)
    (hk : k ∉ b.map Prod.fst) :
    getField (mergeFields a b) k = getField a k := by
  induction b generalizing a with
  | nil => rfl
  | cons x rest ih =>
      rw [mergeFields_cons]
      rw [ih _ (fun h => hk (List.mem_cons_of_mem _ h))]
      exact getField_setField_other _ _ _ _
        (fun h => hk (h ▸ List.mem_cons_self _ _))

/-- A field of the overriding object (with duplicate-free keys) wins. -/
theorem getField_mergeFields_of_mem (a b : List (String × JVal)) (k : String)
    (v : JVal) (hnd : (b.map Prod.fst).Nodup) (hmem : (k, v) ∈ b) :
    getField (mergeFields a b) k = some v := by
  induction b generalizing a with
  | nil => cases hmem
  | cons x rest ih =>
      rw [mergeFields_cons]
      rcases List.mem_cons.mp hmem with hx | hrest
      · subst hx
        have hk : k ∉ rest.map Prod.fst := by
          simpa using (List.nodup_cons.mp hnd).1
        rw [getField_mergeFields_of_not_mem _ _ _ hk]
        exact getField_setField_self _ _ _
      · exact ih _ (List.nodup_cons.mp hnd).2 hrest

/-- Generic: shrinking the filter predicate cannot grow the filtered list. -/
theorem length_filter_mono {α : Type} (l : List α) (p q : α → Bool)
    (himp : ∀ x, q x = true → p x = true) :
    (l.filter q).length ≤ (l.filter p).length := by
  induction l with
  | nil => simp
  | cons a rest ih =>
      by_cases hq : q a = true
      · simp only [List.filter, hq, himp a hq, List.length_cons]
        have := ih
        omega
      · have hqf : q a = false := by revert hq; cases q a <;> simp
        by_cases hp : p a = true
        · simp only [List.filter, hqf, hp, List.length_cons]
          have := ih
          omega
        · have hpf : p a = false := by revert hp; cases p a <;> simp
          simp only [List.filter, hqf, hpf]
          exact ih

/-- Generic: strictly shrinking the filter predicate at a member strictly
shrinks the filtered list. -/
theorem length_filter_lt {α : Type} (l : List α) (i : α) (p q : α → Bool)
    (hmem : i ∈ l) (himp : ∀ x, q x = true → p x = true)
    (hqi : q i = false) (hpi : p i = true) :
    (l.filter q).length < (l.filter p).length := by
  induction l with
  | nil => cases hmem
  | cons a rest ih =>
      rcases List.mem_cons.mp hmem with ha | hrest
      · subst ha
        simp [List.filter, hqi, hpi]
        have := length_filter_mono rest p q himp
        omega
      · by_cases hq : q a = true
        · simp [List.filter, hq, himp a hq]
          have := ih hrest
          omega
        · have hqf : q a = false := by revert hq; cases q a <;> simp
          by_cases hp : p a = true
          · simp [List.filter, hqf, hp]
            have := ih hrest
            omega
          · have hpf : p a = false := by revert hp; cases p a <;> simp
            simp [List.filter, hqf, hpf]
            exact ih hrest

/-- The built string does not depend on the warn table. -/
theorem runChunks_out_table_indep (path : String) (props : PVal) :
    ∀ (chunks : List Chunk) (entered : Bool) (t₁ t₂ : List String),
      (runChunks path props chunks entered t₁).1 =
        (runChunks path props chunks entered t₂).1 := by
  intro chunks
  induction chunks with
  | nil => intro entered t₁ t₂; rfl
  | cons c rest ih =>
      intro entered t₁ t₂
      cases c with
      | lit s => simp only [runChunks]; rw [ih entered t₁ t₂]
      | qsFlag => simp only [runChunks]; exact ih true t₁ t₂
      | lookup kp =>
          cases h : PathBuilderLookupValue props kp with
          | ok v => simp only [runChunks, h]; rw [ih entered t₁ t₂]
          | error e =>
              cases e
              simp only [runChunks, h]
              by_cases h₁ :
                  (t₁.contains (path ++ "|" ++ String.intercalate "." kp)) = true
              · by_cases h₂ :
                    (t₂.contains (path ++ "|" ++ String.intercalate "." kp)) = true
                · rw [if_pos h₁, if_pos h₂]
                  exact congrArg (fun s => "" ++ s) (ih entered t₁ t₂)
                · rw [if_pos h₁, if_neg h₂]
                  exact congrArg (fun s => "" ++ s) (ih entered t₁ _)
              · by_cases h₂ :
                    (t₂.contains (path ++ "|" ++ String.intercalate "." kp)) = true
                · rw [if_neg h₁, if_pos h₂]
                  exact congrArg (fun s => "" ++ s) (ih entered _ t₂)
                · rw [if_neg h₁, if_neg h₂]
                  exact congrArg (fun s => "" ++ s) (ih entered _ _)

/-- Keys present in the warn table survive a run. -/
theorem runChunks_table_mono (path : String) (props : PVal) :
    ∀ (chunks : List Chunk) (entered : Bool) (table : List String) (k : String),
      k ∈ table → k ∈ (runChunks path props chunks entered table).2.1 := by
  intro chunks
  induction chunks with
  | nil => intro entered table k hk; exact hk
  | cons c rest ih =>
      intro entered table k hk
      cases c with
      | lit s => simp only [runChunks]; exact ih entered table k hk
      | qsFlag => simp only [runChunks]; exact ih true table k hk
      | lookup kp =>
          cases h : PathBuilderLookupValue props kp with
          | ok v => simp only [runChunks, h]; exact ih entered table k hk
          | error e =>
              cases e
              simp only [runChunks, h]
              by_cases h₁ :
                  (table.contains (path ++ "|" ++ String.intercalate "." kp)) = true
              · rw [if_pos h₁]; exact ih entered table k hk
              · rw [if_neg h₁]
                exact ih entered _ k (List.mem_cons_of_mem _ hk)

/-- Every placeholder whose lookup throws ends up recorded in the warn table
produced by the run. -/
theorem runChunks_failKey_mem (path : String) (props : PVal) :
    ∀ (chunks : List Chunk) (entered : Bool) (table : List String) (kp : List String),
      Chunk.lookup kp ∈ chunks → PathBuilderLookupValue props kp = .error () →
      (path ++ "|" ++ String.intercalate "." kp) ∈
        (runChunks path props chunks entered table).2.1 := by
  intro chunks
  induction chunks with
  | nil => intro _ _ kp hmem _; exact absurd hmem (List.not_mem_nil _)
  | cons c rest ih =>
      intro entered table kp hmem hfail
      rcases List.mem_cons.mp hmem with hc | hmem'
      · subst hc
        simp only [runChunks, hfail]
        by_cases h₁ :
            (table.contains (path ++ "|" ++ String.intercalate "." kp)) = true
        · rw [if_pos h₁]
          exact runChunks_table_mono path props rest entered table _
            (by simpa using h₁)
        · rw [if_neg h₁]
          exact runChunks_table_mono path props rest entered _ _ (List.mem_cons_self _ _)
      · cases c with
        | lit s => simp only [runChunks]; exact ih entered table kp hmem' hfail
        | qsFlag => simp only [runChunks]; exact ih true table kp hmem' hfail
        | lookup kp' =>
            cases h : PathBuilderLookupValue props kp' with
            | ok v => simp only [runChunks, h]; exact ih entered table kp hmem' hfail
            | error e =>
                cases e
                simp only [runChunks, h]
                by_cases h₁ :
                    (table.contains (path ++ "|" ++ String.intercalate "." kp')) = true
                · rw [if_pos h₁]; exact ih entered table kp hmem' hfail
                · rw [if_neg h₁]; exact ih entered _ kp hmem' hfail

/-- Warnings emitted by one run are pairwise distinct and all fresh relative
to the incoming warn table. -/
theorem runChunks_emitted_fresh (path : String) (props : PVal) :
    ∀ (chunks : List Chunk) (entered : Bool) (table : List String),
      (runChunks path props chunks entered table).2.2.Nodup ∧
      ∀ k ∈ (runChunks path props chunks entered table).2.2, k ∉ table := by
  intro chunks
  induction chunks with
  | nil => intro entered table; exact ⟨List.nodup_nil, by intro k hk; cases hk⟩
  | cons c rest ih =>
      intro entered table
      cases c with
      | lit s => simpa only [runChunks] using ih entered table
      | qsFlag => simpa only [runChunks] using ih true table
      | lookup kp =>
          cases h : PathBuilderLookupValue props kp with
          | ok v => simpa only [runChunks, h] using ih entered table
          | error e =>
              cases e
              simp only [runChunks, h]
              by_cases h₁ :
                  (table.contains (path ++ "|" ++ String.intercalate "." kp)) = true
              · rw [if_pos h₁]; exact ih entered table
              · rw [if_neg h₁]
                obtain ⟨hnd, hfr⟩ := ih entered
                  ((path ++ "|" ++ String.intercalate "." kp) :: table)
                constructor
                · refine List.nodup_cons.mpr ⟨?_, hnd⟩
                  intro hin
                  exact (hfr _ hin) (List.mem_cons_self _ _)
                · intro k hk hktab
                  rcases List.mem_cons.mp hk with hk1 | hk2
                  · subst hk1
                    exact h₁ (by simpa using hktab)
                  · exact (hfr k hk2) (List.mem_cons_of_mem _ hktab)

/-- A run whose failing placeholders are all already recorded in the warn
table emits no warnings and leaves the table unchanged. -/
theorem runChunks_silent (path : String) (props : PVal) :
    ∀ (chunks : List Chunk) (entered : Bool) (table : List String),
      (∀ kp, Chunk.lookup kp ∈ chunks →
        PathBuilderLookupValue props kp = .error () →
        (path ++ "|" ++ String.intercalate "." kp) ∈ table) →
      (runChunks path props chunks entered table).2.2 = [] ∧
      (runChunks path props chunks entered table).2.1 = table := by
  intro chunks
  induction chunks with
  | nil => intro entered table _; exact ⟨rfl, rfl⟩
  | cons c rest ih =>
      intro entered table hall
      cases c with
      | lit s =>
          simpa only [runChunks] using
            ih entered table (fun kp hm hf => hall kp (List.mem_cons_of_mem _ hm) hf)
      | qsFlag =>
          simpa only [runChunks] using
            ih true table (fun kp hm hf => hall kp (List.mem_cons_of_mem _ hm) hf)
      | lookup kp' =>
          cases h : PathBuilderLookupValue props kp' with
          | ok v =>
              simpa only [runChunks, h] using
                ih entered table (fun kp hm hf => hall kp (List.mem_cons_of_mem _ hm) hf)
          | error e =>
              cases e
              simp only [runChunks, h]
              have hmem : (path ++ "|" ++ String.intercalate "." kp') ∈ table :=
                hall kp' (List.mem_cons_self _ _) h
              rw [if_pos (by simpa using hmem)]
              exact ih entered table
                (fun kp hm hf => hall kp (List.mem_cons_of_mem _ hm) hf)


/-- The guard of `_denormalizeRelationships`: a missing `relationships`
member, an already-set marker property, or a recorded marking mutation makes
the function return the object as currently visible, at every fuel. -/
theorem denorm_guard (fuel : Nat) (all : List Resource) (r : Resource)
    (m : List ResourceIdentifier)
    (h : r.relationships? = none ∨ r.denormalizing = true ∨ r.ident ∈ m) :
    _denormalizeRelationships fuel all r m = (.raw (viewAfter m r), m) := by
  cases fuel with
  | zero => simp [_denormalizeRelationships]
  | succ n =>
      rcases h with h | h | h
      · simp [_denormalizeRelationships, h]
      · cases hr : r.relationships? with
        | none => simp [_denormalizeRelationships, hr]
        | some rels => simp [_denormalizeRelationships, hr, h]
      · cases hr : r.relationships? with
        | none => simp [_denormalizeRelationships, hr]
        | some rels => simp [_denormalizeRelationships, hr, h]

/-- A resource whose marking mutation is on record is yielded as the same
object, with its marker property visible, and no further recursion. -/
theorem denorm_guard_marked (fuel : Nat) (all : List Resource) (r : Resource)
    (m : List ResourceIdentifier) (h : r.ident ∈ m) :
    _denormalizeRelationships fuel all r m =
      (.raw { r with denormalizing := true }, m) := by
  rw [denorm_guard fuel all r m (Or.inr (Or.inr h))]
  simp [viewAfter, h]

/-- Marking mutations accumulate: the marker set only grows, across all three
mutually recursive passes. -/
theorem denorm_mono (fuel : Nat) :
    (∀ all r m, m ⊆ (_denormalizeRelationships fuel all r m).2) ∧
    (∀ all rels m, m ⊆ (denormRels fuel all rels m).2) ∧
    (∀ all is m, m ⊆ (denormIdList fuel all is m).2) := by
  induction fuel using Nat.strong_induction_on with
  | _ fuel IH =>
      have hd : ∀ all r m, m ⊆ (_denormalizeRelationships fuel all r m).2 := by
        intro all r m
        cases fuel with
        | zero =>
            simp only [_denormalizeRelationships]
            exact fun _ hx => hx
        | succ n =>
            cases hr : r.relationships? with
            | none =>
                simp only [_denormalizeRelationships, hr]
                exact fun _ hx => hx
            | some rels =>
                by_cases hg : (r.denormalizing || decide (r.ident ∈ m)) = true
                · simp only [_denormalizeRelationships, hr, hg, if_true]
                  exact fun _ hx => hx
                · simp only [_denormalizeRelationships, hr, hg, if_false,
                    Bool.false_eq_true]
                  intro x hx
                  exact (IH n (by omega)).2.1 all rels _ (List.mem_cons_of_mem _ hx)
      have hl : ∀ all is m, m ⊆ (denormIdList fuel all is m).2 := by
        intro all is
        induction is with
        | nil =>
            intro m
            simp only [denormIdList]
            exact fun _ hx => hx
        | cons i is ihl =>
            intro m
            simp only [denormIdList]
            exact (hd all _ m).trans (ihl _)
      have hr : ∀ all rels m, m ⊆ (denormRels fuel all rels m).2 := by
        intro all rels
        induction rels with
        | nil =>
            intro m
            simp only [denormRels]
            exact fun _ hx => hx
        | cons e rest ihr =>
            intro m
            obtain ⟨name, related⟩ := e
            simp only [denormRels]
            split
            · exact ihr m
            · exact (hd all _ m).trans (ihr _)
            · exact (hl all _ m).trans (ihr _)
      exact ⟨hd, hr, hl⟩

/-- Marking mutations accumulate (relationship-list pass). -/
theorem denormRels_mono (fuel : Nat) (all : List Resource)
    (rels : List (String × RelationshipInfo)) (m : List ResourceIdentifier) :
    m ⊆ (denormRels fuel all rels m).2 := (denorm_mono fuel).2.1 all rels m

/-- A larger marker set leaves fewer unmarked identifiers. -/
theorem unmarked_le_of_subset (all : List Resource)
    (m m' : List ResourceIdentifier) (h : m ⊆ m') :
    unmarkedCount all m' ≤ unmarkedCount all m := by
  refine length_filter_mono _ _ _ (fun x hx => ?_)
  simp only [decide_eq_true_eq] at hx ⊢
  exact fun hmem => hx (h hmem)

/-- Marking a member of `allResources` strictly decreases the number of
unmarked identifiers. -/
theorem unmarked_lt_insert (all : List Resource) (r : Resource)
    (m : List ResourceIdentifier) (hr : r ∈ all) (hm : r.ident ∉ m) :
    unmarkedCount all (r.ident :: m) < unmarkedCount all m := by
  refine length_filter_lt _ r.ident _ _ ?_ ?_ ?_ ?_
  · exact List.mem_dedup.mpr (List.mem_map_of_mem Resource.ident hr)
  · intro x hx
    simp only [decide_eq_true_eq] at hx ⊢
    exact fun hmem => hx (List.mem_cons_of_mem _ hmem)
  · simp
  · simp [hm]

/-- An unmarked member of `allResources` witnesses a positive count. -/
theorem unmarked_pos (all : List Resource) (r : Resource)
    (m : List ResourceIdentifier) (hr : r ∈ all) (hm : r.ident ∉ m) :
    0 < unmarkedCount all m := by
  have hmem : r.ident ∈ ((all.map Resource.ident).dedup).filter
      (fun i => decide (i ∉ m)) := by
    refine List.mem_filter.mpr ⟨?_, by simp [hm]⟩
    exact List.mem_dedup.mpr (List.mem_map_of_mem Resource.ident hr)
  exact List.length_pos.mpr (List.ne_nil_of_mem hmem)

/-- Fuel-irrelevance of `_denormalizeRelationships` (and its two list
passes): any two fuels exceeding the number of unmarked identifiers of
`allResources` produce the same result — i.e. the mutable-marker-bounded
JavaScript recursion terminates, and the explicit fuel is a faithful model
of it. -/
theorem denorm_fuel_stable (f₁ : Nat) :
    (∀ f₂ all (r : Resource) m, r ∈ all →
      unmarkedCount all m < f₁ → unmarkedCount all m < f₂ →
      _denormalizeRelationships f₁ all r m =
        _denormalizeRelationships f₂ all r m) ∧
    (∀ f₂ all rels m,
      unmarkedCount all m < f₁ → unmarkedCount all m < f₂ →
      denormRels f₁ all rels m = denormRels f₂ all rels m) ∧
    (∀ f₂ all is m,
      unmarkedCount all m < f₁ → unmarkedCount all m < f₂ →
      denormIdList f₁ all is m = denormIdList f₂ all is m) := by
  induction f₁ using Nat.strong_induction_on with
  | _ f₁ IH =>
      have hd : ∀ f₂ all (r : Resource) m, r ∈ all →
          unmarkedCount all m < f₁ → unmarkedCount all m < f₂ →
          _denormalizeRelationships f₁ all r m =
            _denormalizeRelationships f₂ all r m := by
        intro f₂ all r m hr hu1 hu2
        by_cases hg : r.relationships? = none ∨ r.denormalizing = true ∨
            r.ident ∈ m
        · rw [denorm_guard f₁ all r m hg, denorm_guard f₂ all r m hg]
        · push_neg at hg
          obtain ⟨hrel, hden, hmem⟩ := hg
          obtain ⟨rels, hrels⟩ := Option.ne_none_iff_exists'.mp hrel
          have hpos := unmarked_pos all r m hr hmem
          have hden' : r.denormalizing = false := by
            revert hden; cases r.denormalizing <;> simp
          obtain ⟨a, rfl⟩ : ∃ a, f₁ = a + 1 := ⟨f₁ - 1, by omega⟩
          obtain ⟨b, rfl⟩ : ∃ b, f₂ = b + 1 := ⟨f₂ - 1, by omega⟩
          have hlt := unmarked_lt_insert all r m hr hmem
          have heq : denormRels a all rels (r.ident :: m) =
              denormRels b all rels (r.ident :: m) :=
            (IH a (by omega)).2.1 b all rels (r.ident :: m)
              (by omega) (by omega)
          simp only [_denormalizeRelationships, hrels, hden',
            decide_eq_false hmem, Bool.or_self, Bool.false_eq_true, if_false,
            heq]
      have hl : ∀ f₂ all is m,
          unmarkedCount all m < f₁ → unmarkedCount all m < f₂ →
          denormIdList f₁ all is m = denormIdList f₂ all is m := by
        intro f₂ all is
        induction is with
        | nil =>
            intro m hu1 hu2
            simp only [denormIdList]
        | cons i is ihl =>
            intro m hu1 hu2
            simp only [denormIdList]
            cases hfind : findResource i all with
            | some r' =>
                have hr' : r' ∈ all := List.mem_of_find?_eq_some hfind
                have heq := hd f₂ all r' m hr' hu1 hu2
                have hsub := (denorm_mono f₁).1 all r' m
                have hle := unmarked_le_of_subset all m _ hsub
                have h2 := congrArg Prod.snd heq
                simp only [hfind, Option.getD_some, heq]
                rw [ihl _ (by rw [← h2]; omega) (by rw [← h2]; omega)]
            | none =>
                have heq : _denormalizeRelationships f₁ all (identAsResource i) m
                    = _denormalizeRelationships f₂ all (identAsResource i) m := by
                  rw [denorm_guard f₁ all _ m (Or.inl rfl),
                    denorm_guard f₂ all _ m (Or.inl rfl)]
                simp only [hfind, Option.getD_none, heq]
                rw [denorm_guard f₂ all _ m (Or.inl rfl)]
                rw [ihl _ (by exact hu1) (by exact hu2)]
      have hrls : ∀ f₂ all rels m,
          unmarkedCount all m < f₁ → unmarkedCount all m < f₂ →
          denormRels f₁ all rels m = denormRels f₂ all rels m := by
        intro f₂ all rels
        induction rels with
        | nil =>
            intro m hu1 hu2
            simp only [denormRels]
        | cons e rest ihr =>
            intro m hu1 hu2
            obtain ⟨name, related⟩ := e
            cases hrd : related.data? with
            | none =>
                simp only [denormRels, hrd]
                rw [ihr m hu1 hu2]
            | some rd =>
                cases rd with
                | one i =>
                    simp only [denormRels, hrd]
                    cases hfind : findResource i all with
                    | some r' =>
                        have hr' : r' ∈ all := List.mem_of_find?_eq_some hfind
                        have heq := hd f₂ all r' m hr' hu1 hu2
                        have hsub := (denorm_mono f₁).1 all r' m
                        have hle := unmarked_le_of_subset all m _ hsub
                        have h2 := congrArg Prod.snd heq
                        simp only [hfind, Option.getD_some, heq]
                        rw [ihr _ (by rw [← h2]; omega) (by rw [← h2]; omega)]
                    | none =>
                        have heq : _denormalizeRelationships f₁ all
                            (identAsResource i) m
                            = _denormalizeRelationships f₂ all
                              (identAsResource i) m := by
                          rw [denorm_guard f₁ all _ m (Or.inl rfl),
                            denorm_guard f₂ all _ m (Or.inl rfl)]
                        simp only [hfind, Option.getD_none, heq]
                        rw [denorm_guard f₂ all _ m (Or.inl rfl)]
                        rw [ihr _ (by exact hu1) (by exact hu2)]
                | many is =>
                    simp only [denormRels, hrd]
                    have heq := hl f₂ all is m hu1 hu2
                    have hsub := (denorm_mono f₁).2.2 all is m
                    have hle := unmarked_le_of_subset all m _ hsub
                    have h2 := congrArg Prod.snd heq
                    simp only [heq]
                    rw [ihr _ (by rw [← h2]; omega) (by rw [← h2]; omega)]
      exact ⟨hd, hrls, hl⟩


/-- The expansion branch of `_denormalizeRelationships`: an unmarked resource
with relationships is marked (`data.__relationships_denormalizing = true`)
and the copy `\x7b...data, relationships\x7d` is returned, carrying the
freshly set marker and the replaced relationships. -/
theorem denorm_expand (fuel : Nat) (all : List Resource) (r : Resource)
    (m : List ResourceIdentifier) (rels : List (String × RelationshipInfo))
    (hrels : r.relationships? = some rels) (hden : r.denormalizing = false)
    (hmem : r.ident ∉ m) :
    _denormalizeRelationships (fuel + 1) all r m =
      (.node { r.toResourceCore with denormalizing := true }
        (denormRels fuel all rels (r.ident :: m)).1,
       (denormRels fuel all rels (r.ident :: m)).2) := by
  simp only [_denormalizeRelationships, hrels, hden, decide_eq_false hmem,
    Bool.or_self, Bool.false_eq_true, if_false]

/-- A found resource carries exactly the identifier it was looked up by. -/
theorem findResource_ident (i : ResourceIdentifier) (all : List Resource)
    (d : Resource) (h : findResource i all = some d) : d.ident = i := by
  have := List.find?_some h
  simp only [Bool.and_eq_true, beq_iff_eq] at this
  cases i
  simp [Resource.ident, this.1, this.2]

/-- The identifier lookup scans front to back, so a matching head (the
primary `data` resource) shadows every later entry. -/
theorem findResource_head (i : ResourceIdentifier) (data : Resource)
    (included : List Resource) (hid : data.id = i.id)
    (hty : data.type = i.type) :
    findResource i (data :: included) = some data := by
  simp [findResource, List.find?, hid, hty]

/-- In the relationship pass, an envelope without a `data` member is mapped
to `null` (the slot found under its name in the produced relationships). -/
theorem denormRels_slot_none (fuel : Nat) (all : List Resource) :
    ∀ (rels : List (String × RelationshipInfo)) (m : List ResourceIdentifier)
      (k : String) (related : RelationshipInfo),
      (rels.map Prod.fst).Nodup → (k, related) ∈ rels → related.data? = none →
      ((denormRels fuel all rels m).1.find? (fun kv => kv.1 = k)).map Prod.snd
        = some DSlot.dnull := by
  intro rels
  induction rels with
  | nil => intro m k related _ hmem _; cases hmem
  | cons e rest ih =>
      intro m k related hnd hmem hdata
      obtain ⟨k0, rel0⟩ := e
      by_cases hk : k0 = k
      · subst hk
        have hrel : rel0 = related := by
          rcases List.mem_cons.mp hmem with h | h
          · exact (Prod.mk.injEq _ _ _ _ ▸ h).2.symm
          · exact absurd (List.mem_map_of_mem Prod.fst h)
              (by simpa using (List.nodup_cons.mp hnd).1)
        subst hrel
        simp only [denormRels, hdata]
        simp [List.find?]
      · have hmem' : (k, related) ∈ rest := by
          rcases List.mem_cons.mp hmem with h | h
          · exact absurd (Prod.mk.injEq _ _ _ _ ▸ h).1.symm hk
          · exact h
        have hnd' := (List.nodup_cons.mp hnd).2
        cases hrd : rel0.data? with
        | none =>
            simp only [denormRels, hrd]
            simp only [List.find?, decide_eq_false hk, Option.map]
            exact ih _ k related hnd' hmem' hdata
        | some rd =>
            cases rd with
            | one i =>
                simp only [denormRels, hrd]
                simp only [List.find?, decide_eq_false hk]
                exact ih _ k related hnd' hmem' hdata
            | many is =>
                simp only [denormRels, hrd]
                simp only [List.find?, decide_eq_false hk]
                exact ih _ k related hnd' hmem' hdata

/-- In the relationship pass, a single-identifier envelope whose referent is
found in `allResources` and already marked is mapped to that same resource
object, marker visible, without recursing into it. -/
theorem denormRels_slot_marked (fuel : Nat) (all : List Resource) :
    ∀ (rels : List (String × RelationshipInfo)) (m : List ResourceIdentifier)
      (k : String) (related : RelationshipInfo) (i : ResourceIdentifier)
      (d : Resource),
      (rels.map Prod.fst).Nodup → (k, related) ∈ rels →
      related.data? = some (.one i) → findResource i all = some d → i ∈ m →
      ((denormRels fuel all rels m).1.find? (fun kv => kv.1 = k)).map Prod.snd
        = some (.one (.raw { d with denormalizing := true })) := by
  intro rels
  induction rels with
  | nil => intro m k related i d _ hmem _ _ _; cases hmem
  | cons e rest ih =>
      intro m k related i d hnd hmem hdata hfind hm
      obtain ⟨k0, rel0⟩ := e
      by_cases hk : k0 = k
      · subst hk
        have hrel : rel0 = related := by
          rcases List.mem_cons.mp hmem with h | h
          · exact (Prod.mk.injEq _ _ _ _ ▸ h).2.symm
          · exact absurd (List.mem_map_of_mem Prod.fst h)
              (by simpa using (List.nodup_cons.mp hnd).1)
        subst hrel
        have hdm : d.ident ∈ m := by rw [findResource_ident i all d hfind]; exact hm
        simp only [denormRels, hdata, hfind, Option.getD_some,
          denorm_guard_marked fuel all d m hdm]
        simp [List.find?]
      · have hmem' : (k, related) ∈ rest := by
          rcases List.mem_cons.mp hmem with h | h
          · exact absurd (Prod.mk.injEq _ _ _ _ ▸ h).1.symm hk
          · exact h
        have hnd' := (List.nodup_cons.mp hnd).2
        cases hrd : rel0.data? with
        | none =>
            simp only [denormRels, hrd]
            simp only [List.find?, decide_eq_false hk]
            exact ih _ k related i d hnd' hmem' hdata hfind hm
        | some rd =>
            cases rd with
            | one j =>
                simp only [denormRels, hrd]
                simp only [List.find?, decide_eq_false hk]
                refine ih _ k related i d hnd' hmem' hdata hfind ?_
                exact (denorm_mono fuel).1 all _ m hm
            | many is =>
                simp only [denormRels, hrd]
                simp only [List.find?, decide_eq_false hk]
                refine ih _ k related i d hnd' hmem' hdata hfind ?_
                exact (denorm_mono fuel).2.2 all is m hm

end JsonApi

/-- C1 counterexample: the claim says a read-only (`query`) operation kind may
only use safe verbs, but the code accepts the unsafe verb `DELETE` for a
`query` operation without error (the `query` arm checks membership in the
full `SUPPORTED_HTTP_VERBS` list, exactly like the `mutation` arm). -/
theorem C1_counterexample :
    JsonApi.validateRequestMethodForOperationType "DELETE"
      JsonApi.OperationTypeNode.query = Except.ok () := by
  rfl

/-- C1 (amended): for every fetch-directive node the configured HTTP verb is
validated against the top-level operation kind before any request is issued;
both a `query` and a `mutation` operation kind accept exactly the verbs of
the fixed supported set (GET, POST, PUT, PATCH, DELETE, case-insensitively),
while a `subscription` operation kind is always rejected with a descriptive
error. -/
theorem C1_amended (method : String) :
    (∀ op : JsonApi.OperationTypeNode, op ≠ .subscription →
      (JsonApi.validateRequestMethodForOperationType method op = .ok () ↔
        JsonApi.SUPPORTED_HTTP_VERBS.contains (JsonApi.jsToUpper method) = true)) ∧
    ∃ msg, JsonApi.validateRequestMethodForOperationType method .subscription =
        .error msg := by
  refine ⟨fun op hop => ?_, ⟨_, rfl⟩⟩
  cases op with
  | query =>
      simp only [JsonApi.validateRequestMethodForOperationType]
      by_cases h : JsonApi.SUPPORTED_HTTP_VERBS.contains (JsonApi.jsToUpper method) = true
      · simp [h]
      · simp [h]
  | mutation =>
      simp only [JsonApi.validateRequestMethodForOperationType]
      by_cases h : JsonApi.SUPPORTED_HTTP_VERBS.contains (JsonApi.jsToUpper method) = true
      · simp [h]
      · simp [h]
  | subscription => exact absurd rfl hop

/-- C1 amended witness: at the concrete verb `PATCH`, a `query` operation
accepts it and a `subscription` operation is rejected. -/
theorem C1_amended_witness :
    JsonApi.validateRequestMethodForOperationType "PATCH"
      JsonApi.OperationTypeNode.query = .ok () ∧
    ∃ msg, JsonApi.validateRequestMethodForOperationType "PATCH"
        JsonApi.OperationTypeNode.subscription = .error msg := by
  refine ⟨?_, ((C1_amended "PATCH").2)⟩
  exact ((C1_amended "PATCH").1 .query (by decide)).mpr (by decide)


/-- C7 counterexample: the claim says every unresolvable placeholder is
replaced by the empty string with a one-time warning, but a dotted key path
that misses only at its final segment (here `args.a` with an empty `args`
object) resolves to `undefined` without throwing, so the placeholder is
replaced by the string `"undefined"`, no warning is recorded, and the built
path is `/x/undefined` rather than `/x/`. -/
theorem C7_counterexample :
    JsonApi.replacerForPath "/x/\x7bargs.a\x7d"
      (JsonApi.PVal.obj [("args", JsonApi.PVal.obj [])]) [] =
      ("/x/undefined", [], []) := rfl

/-- C7 (amended): when a placeholder's dotted key path lookup throws (an
access on an `undefined`/`null` intermediate value), path construction does
not throw: the placeholder contributes the empty string and the remaining
chunks are still processed; the warnings emitted by a run are pairwise
distinct and all absent from the incoming warn table; and re-running the same
template against the same props with the updated warn table produces the same
path while emitting no warning at all (one warning per distinct template+path
pair per launch).  A key path that misses only at its final segment instead
resolves to `undefined` and is substituted as the string `"undefined"`
without any warning. -/
theorem C7_amended (path : String) (props : JsonApi.PVal) (warnTable : List String) :
    (∀ keyPath rest entered,
      JsonApi.PathBuilderLookupValue props keyPath = .error () →
      (JsonApi.runChunks path props (JsonApi.Chunk.lookup keyPath :: rest)
          entered warnTable).1
        = "" ++ (JsonApi.runChunks path props rest entered warnTable).1) ∧
    ((JsonApi.replacerForPath path props warnTable).2.2.Nodup ∧
      ∀ k ∈ (JsonApi.replacerForPath path props warnTable).2.2, k ∉ warnTable) ∧
    ((JsonApi.replacerForPath path props
        ((JsonApi.replacerForPath path props warnTable).2.1)).1
      = (JsonApi.replacerForPath path props warnTable).1 ∧
     (JsonApi.replacerForPath path props
        ((JsonApi.replacerForPath path props warnTable).2.1)).2.2 = []) := by
  refine ⟨?_, ?_, ?_⟩
  · intro keyPath rest entered hfail
    simp only [JsonApi.runChunks, hfail]
    by_cases h₁ :
        (warnTable.contains (path ++ "|" ++ String.intercalate "." keyPath)) = true
    · rw [if_pos h₁]
    · rw [if_neg h₁]
      exact congrArg (fun s => "" ++ s)
        (JsonApi.runChunks_out_table_indep path props rest entered _ _)
  · exact JsonApi.runChunks_emitted_fresh path props _ false warnTable
  · have hsil := JsonApi.runChunks_silent path props (JsonApi.buildChunks path) false
      ((JsonApi.replacerForPath path props warnTable).2.1)
      (fun kp hm hf =>
        JsonApi.runChunks_failKey_mem path props (JsonApi.buildChunks path)
          false warnTable kp hm hf)
    exact ⟨JsonApi.runChunks_out_table_indep path props (JsonApi.buildChunks path)
      false _ _, hsil.1⟩

/-- C7 amended witness: at the concrete template `/x/\x7bargs.a.b\x7d` with an
empty `args` object, the lookup throws, the placeholder contributes the empty
string, the single emitted warning is fresh, and the rerun is silent. -/
theorem C7_amended_witness :
    JsonApi.PathBuilderLookupValue
        (JsonApi.PVal.obj [("args", JsonApi.PVal.obj [])]) ["args", "a", "b"]
      = .error () ∧
    (JsonApi.runChunks "/x/\x7bargs.a.b\x7d"
        (JsonApi.PVal.obj [("args", JsonApi.PVal.obj [])])
        (JsonApi.Chunk.lookup ["args", "a", "b"] :: []) false []).1
      = "" ++ (JsonApi.runChunks "/x/\x7bargs.a.b\x7d"
          (JsonApi.PVal.obj [("args", JsonApi.PVal.obj [])]) [] false []).1 ∧
    (JsonApi.replacerForPath "/x/\x7bargs.a.b\x7d"
        (JsonApi.PVal.obj [("args", JsonApi.PVal.obj [])])
        ((JsonApi.replacerForPath "/x/\x7bargs.a.b\x7d"
          (JsonApi.PVal.obj [("args", JsonApi.PVal.obj [])]) []).2.1)).2.2 = [] :=
  ⟨rfl,
    (C7_amended "/x/\x7bargs.a.b\x7d"
        (JsonApi.PVal.obj [("args", JsonApi.PVal.obj [])]) []).1
      ["args", "a", "b"] [] false rfl,
    (C7_amended "/x/\x7bargs.a.b\x7d"
        (JsonApi.PVal.obj [("args", JsonApi.PVal.obj [])]) []).2.2.2⟩

/-- C8: in a compiled path template, a placeholder after the `?` whose
resolved value is a non-null structured object is serialized with the
query-string encoding rule, while a placeholder before the `?` is always
rendered with plain `String(value)` even when it resolves to an object (the
second conjunct places the same placeholder on both sides of the `?`); in
particular `/posts/\x7bargs.id\x7d?\x7bargs.filter\x7d` applied to
`args = \x7bid: "1", filter: \x7btag: "x"\x7d\x7d` produces exactly
`/posts/1?tag=x`. -/
theorem C8_theorem :
    (∀ v w : JsonApi.PVal,
      (JsonApi.replacerForPath "/posts/\x7bargs.id\x7d?\x7bargs.filter\x7d"
          (JsonApi.PVal.obj [("args", JsonApi.PVal.obj [("id", v), ("filter", w)])])
          []).1
        = "/posts/" ++ JsonApi.jsString v ++ "?" ++
            (if JsonApi.isStructuredObject w then JsonApi.qsStringify w
             else JsonApi.jsString w)) ∧
    (∀ w : JsonApi.PVal,
      (JsonApi.replacerForPath "/posts/\x7bargs.filter\x7d/x?\x7bargs.filter\x7d"
          (JsonApi.PVal.obj [("args", JsonApi.PVal.obj [("filter", w)])]) []).1
        = "/posts/" ++ JsonApi.jsString w ++ "/x?" ++
            (if JsonApi.isStructuredObject w then JsonApi.qsStringify w
             else JsonApi.jsString w)) ∧
    (JsonApi.replacerForPath "/posts/\x7bargs.id\x7d?\x7bargs.filter\x7d"
        (JsonApi.PVal.obj [("args", JsonApi.PVal.obj
          [("id", JsonApi.PVal.str "1"),
           ("filter", JsonApi.PVal.obj [("tag", JsonApi.PVal.str "x")])])]) []).1
      = "/posts/1?tag=x" := by
  refine ⟨?_, ?_, rfl⟩
  · intro v w
    have h0 : (JsonApi.replacerForPath "/posts/\x7bargs.id\x7d?\x7bargs.filter\x7d"
        (JsonApi.PVal.obj [("args", JsonApi.PVal.obj [("id", v), ("filter", w)])])
        []).1
      = "/posts/" ++ (JsonApi.jsString v ++ ("?" ++
          ((if (!JsonApi.isStructuredObject w) = true then JsonApi.jsString w
            else JsonApi.qsStringify w) ++ ""))) := rfl
    rw [h0, String.append_empty]
    cases hw : JsonApi.isStructuredObject w <;>
      simp [hw, String.append_assoc]
  · intro w
    have h0 : (JsonApi.replacerForPath "/posts/\x7bargs.filter\x7d/x?\x7bargs.filter\x7d"
        (JsonApi.PVal.obj [("args", JsonApi.PVal.obj [("filter", w)])]) []).1
      = "/posts/" ++ (JsonApi.jsString w ++ ("/x?" ++
          ((if (!JsonApi.isStructuredObject w) = true then JsonApi.jsString w
            else JsonApi.qsStringify w) ++ ""))) := rfl
    rw [h0, String.append_empty]
    cases hw : JsonApi.isStructuredObject w <;>
      simp [hw, String.append_assoc]

open JsonApi

/-- C2 counterexample: the claim says the expansion marker is removed from
the input and never appears in the returned shape, but for a resource with a
relationship the pass returns a copy whose
`__relationships_denormalizing` property is `true`, and the input object
(viewed after the pass's recorded mutations) still carries the marker — it
is never removed. -/
theorem C2_counterexample :
    ((denormalizeRelationships
        { id := "1", type := "posts",
          relationships? := some [("author", { data? := none })] } []).1).marker
      = true ∧
    viewAfter
        (denormalizeRelationships
          { id := "1", type := "posts",
            relationships? := some [("author", { data? := none })] } []).2
        { id := "1", type := "posts",
          relationships? := some [("author", { data? := none })] }
      ≠ { id := "1", type := "posts",
          relationships? := some [("author", { data? := none })] } := by
  constructor
  · simp [denormalizeRelationships, _denormalizeRelationships, denormRels,
      DRes.marker, Resource.ident]
  · intro h
    have h2 := congrArg (fun x => x.denormalizing) h
    simp [denormalizeRelationships, _denormalizeRelationships, denormRels,
      viewAfter, Resource.ident] at h2

/-- C2 (amended): for every resource with relationships that is not already
mid-expansion, denormalization returns a new resource object with
`relationships` replaced, but the transient expansion marker is set on the
copy (it appears in the returned shape as `__relationships_denormalizing:
true`) and the marking mutation on the input is never undone: after the pass
the input object still carries the marker. -/
theorem C2_amended (fuel : Nat) (all : List Resource) (r : Resource)
    (m : List ResourceIdentifier) (rels : List (String × RelationshipInfo))
    (hrels : r.relationships? = some rels) (hden : r.denormalizing = false)
    (hmem : r.ident ∉ m) :
    (∃ slots, (_denormalizeRelationships (fuel + 1) all r m).1 =
      .node { r.toResourceCore with denormalizing := true } slots) ∧
    (_denormalizeRelationships (fuel + 1) all r m).1.marker = true ∧
    r.ident ∈ (_denormalizeRelationships (fuel + 1) all r m).2 ∧
    viewAfter (_denormalizeRelationships (fuel + 1) all r m).2 r =
      { r with denormalizing := true } := by
  rw [denorm_expand fuel all r m rels hrels hden hmem]
  have hin : r.ident ∈ (denormRels fuel all rels (r.ident :: m)).2 :=
    denormRels_mono fuel all rels _ (List.mem_cons_self _ _)
  refine ⟨⟨_, rfl⟩, rfl, hin, ?_⟩
  simp [viewAfter, hin]

/-- C2 amended witness: the amended statement instantiated on a concrete
one-relationship resource. -/
theorem C2_amended_witness :
    (∃ slots,
      (_denormalizeRelationships 1 []
          { id := "1", type := "posts",
            relationships? := some [("author", { data? := none })] } []).1 =
        .node { id := "1", type := "posts", denormalizing := true } slots) ∧
    (_denormalizeRelationships 1 []
        { id := "1", type := "posts",
          relationships? := some [("author", { data? := none })] } []).1.marker
      = true := by
  have h := C2_amended 0 []
    { id := "1", type := "posts",
      relationships? := some [("author", { data? := none })] }
    [] [("author", { data? := none })] rfl rfl (by simp)
  exact ⟨h.1, h.2.1⟩

/-- C3 counterexample: the claim says a relationship whose envelope has no
`data` key passes through untouched, but a relationship holding only `links`
is replaced by `null` in the denormalized output. -/
theorem C3_counterexample :
    ((denormalizeRelationships
        { id := "1", type := "posts",
          relationships? := some [("author",
            { links? := some (JVal.str "/posts/1/author") })] } []).1).slotOf
      "author" = some DSlot.dnull := by
  simp [denormalizeRelationships, _denormalizeRelationships, denormRels,
    DRes.slotOf, Resource.ident, List.find?]

/-- C3 (amended): for every resource and every relationship whose envelope
has no `data` member, denormalization maps that relationship to `null` (the
envelope, including any `links`/`meta` it held, is discarded). -/
theorem C3_amended (fuel : Nat) (all : List Resource) (r : Resource)
    (m : List ResourceIdentifier) (rels : List (String × RelationshipInfo))
    (k : String) (related : RelationshipInfo)
    (hrels : r.relationships? = some rels) (hden : r.denormalizing = false)
    (hmem : r.ident ∉ m) (hnd : (rels.map Prod.fst).Nodup)
    (hk : (k, related) ∈ rels) (hdata : related.data? = none) :
    (_denormalizeRelationships (fuel + 1) all r m).1.slotOf k =
      some DSlot.dnull := by
  rw [denorm_expand fuel all r m rels hrels hden hmem]
  exact denormRels_slot_none fuel all rels _ k related hnd hk hdata

/-- C3 amended witness: the amended statement instantiated on a concrete
resource whose single relationship carries only `links`. -/
theorem C3_amended_witness :
    (_denormalizeRelationships 1 []
        { id := "1", type := "posts",
          relationships? := some [("author",
            { links? := some (JVal.str "/posts/1/author") })] } []).1.slotOf
      "author" = some DSlot.dnull :=
  C3_amended 0 []
    { id := "1", type := "posts",
      relationships? := some [("author",
        { links? := some (JVal.str "/posts/1/author") })] }
    [] [("author", { links? := some (JVal.str "/posts/1/author") })]
    "author" { links? := some (JVal.str "/posts/1/author") }
    rfl rfl (by simp) (by simp) (by simp) rfl

/-- The unmarked-identifier count never exceeds the resource-list length. -/
theorem unmarkedCount_le_length (all : List Resource)
    (m : List ResourceIdentifier) : unmarkedCount all m ≤ all.length := by
  have h1 := List.length_filter_le (fun i => decide (i ∉ m))
    ((all.map Resource.ident).dedup)
  have h2 := List.Sublist.length_le (List.dedup_sublist (all.map Resource.ident))
  have h3 : (all.map Resource.ident).length = all.length := List.length_map _ _
  unfold unmarkedCount
  omega

/-- C4: for every resource that relates to itself directly or transitively,
denormalization terminates — the result of `_denormalizeRelationships` on
`[data, ...included]` is the same for every fuel above `included.length + 1`,
so the marker-bounded JavaScript recursion is finite — and a self-referencing
branch yields the same already-expanded resource object rather than recursing
forever: any resource whose marking is on record is returned as-is (marker
visible, no recursion), and in particular a relationship of `data`
referencing `data` itself denormalizes to `data` (marked), not to a further
expansion. -/
theorem C4_theorem (data : Resource) (included : List Resource)
    (hcyc : RelatesTransitively (data :: included) data data.ident) :
    (∀ f₁ f₂, included.length + 1 < f₁ → included.length + 1 < f₂ →
      _denormalizeRelationships f₁ (data :: included) data [] =
        _denormalizeRelationships f₂ (data :: included) data []) ∧
    (∀ fuel all (r : Resource) m, r.ident ∈ m →
      _denormalizeRelationships fuel all r m =
        (.raw { r with denormalizing := true }, m)) ∧
    (∀ rels k related, data.relationships? = some rels →
      data.denormalizing = false → (rels.map Prod.fst).Nodup →
      (k, related) ∈ rels → related.data? = some (.one data.ident) →
      (denormalizeRelationships data included).1.slotOf k =
        some (.one (.raw { data with denormalizing := true }))) := by
  refine ⟨?_, ?_, ?_⟩
  · intro f₁ f₂ h₁ h₂
    have hb := unmarkedCount_le_length (data :: included) []
    simp only [List.length_cons] at hb
    exact (denorm_fuel_stable f₁).1 f₂ (data :: included) data []
      (List.mem_cons_self _ _) (by omega) (by omega)
  · exact fun fuel all r m hm => denorm_guard_marked fuel all r m hm
  · intro rels k related hrels hden hnd hk hdata
    unfold denormalizeRelationships
    rw [show included.length + 2 = (included.length + 1) + 1 from rfl]
    rw [denorm_expand (included.length + 1) (data :: included) data [] rels
      hrels hden (by simp)]
    exact denormRels_slot_marked (included.length + 1) (data :: included)
      rels _ k related data.ident data hnd hk hdata
      (findResource_head data.ident data included rfl rfl)
      (List.mem_cons_self _ _)

/-- C4 witness: a concrete directly self-referencing resource — the fuel
bound is met at fuels 3 and 4, and the self branch yields the same (marked)
resource object. -/
theorem C4_theorem_witness :
    (_denormalizeRelationships 3
        [{ id := "1", type := "posts",
           relationships? := some [("self",
             { data? := some (.one ⟨"1", "posts"⟩) })] }]
        { id := "1", type := "posts",
          relationships? := some [("self",
            { data? := some (.one ⟨"1", "posts"⟩) })] } [] =
      _denormalizeRelationships 4
        [{ id := "1", type := "posts",
           relationships? := some [("self",
             { data? := some (.one ⟨"1", "posts"⟩) })] }]
        { id := "1", type := "posts",
          relationships? := some [("self",
            { data? := some (.one ⟨"1", "posts"⟩) })] } []) ∧
    ((denormalizeRelationships
        { id := "1", type := "posts",
          relationships? := some [("self",
            { data? := some (.one ⟨"1", "posts"⟩) })] } []).1.slotOf "self" =
      some (.one (.raw
        { id := "1", type := "posts",
          relationships? := some [("self",
            { data? := some (.one ⟨"1", "posts"⟩) })],
          denormalizing := true }))) := by
  have h := C4_theorem
    { id := "1", type := "posts",
      relationships? := some [("self", { data? := some (.one ⟨"1", "posts"⟩) })] }
    []
    (RelatesTransitively.direct
      ⟨[("self", { data? := some (.one ⟨"1", "posts"⟩) })], rfl,
        "self", { data? := some (.one ⟨"1", "posts"⟩) },
        List.mem_cons_self _ _, Or.inl rfl⟩)
  exact ⟨h.1 3 4 (by simp) (by simp),
    h.2.2 [("self", { data? := some (.one ⟨"1", "posts"⟩) })] "self"
      { data? := some (.one ⟨"1", "posts"⟩) } rfl rfl (by simp) (by simp) rfl⟩

/-- C10: identifier lookup scans `[data, ...included]` front to back and
substitutes the first resource whose `id` and `type` both match, so when the
primary `data` resource matches an identifier it shadows every `included`
entry carrying the same identifier: a relationship referencing that
identifier resolves to the primary resource object (marked, since it is
mid-expansion), not to the `included` copy. -/
theorem C10_theorem (data : Resource) (included : List Resource) :
    (∀ i : ResourceIdentifier, data.id = i.id → data.type = i.type →
      findResource i (data :: included) = some data) ∧
    (∀ inc ∈ included, inc.ident = data.ident →
      ∀ rels k related, data.relationships? = some rels →
        data.denormalizing = false → (rels.map Prod.fst).Nodup →
        (k, related) ∈ rels → related.data? = some (.one data.ident) →
        (denormalizeRelationships data included).1.slotOf k =
          some (.one (.raw { data with denormalizing := true }))) := by
  refine ⟨fun i hid hty => findResource_head i data included hid hty, ?_⟩
  intro inc hinc hsame rels k related hrels hden hnd hk hdata
  unfold denormalizeRelationships
  rw [show included.length + 2 = (included.length + 1) + 1 from rfl]
  rw [denorm_expand (included.length + 1) (data :: included) data [] rels
    hrels hden (by simp)]
  exact denormRels_slot_marked (included.length + 1) (data :: included)
    rels _ k related data.ident data hnd hk hdata
    (findResource_head data.ident data included rfl rfl)
    (List.mem_cons_self _ _)

/-- C10 witness: a primary resource and an `included` entry with the same
identifier but different attributes — the relationship resolves to the
primary resource, not to the included copy. -/
theorem C10_theorem_witness :
    findResource ⟨"1", "posts"⟩
      [{ id := "1", type := "posts",
         relationships? := some [("self",
           { data? := some (.one ⟨"1", "posts"⟩) })] },
       { id := "1", type := "posts",
         attributes? := some [("title", JVal.str "shadowed copy")] }] =
      some ({ id := "1", type := "posts",
              relationships? := some [("self",
                { data? := some (.one ⟨"1", "posts"⟩) })] } : Resource) ∧
    (denormalizeRelationships
        { id := "1", type := "posts",
          relationships? := some [("self",
            { data? := some (.one ⟨"1", "posts"⟩) })] }
        [{ id := "1", type := "posts",
           attributes? := some [("title", JVal.str "shadowed copy")] }]).1.slotOf
      "self" =
      some (.one (.raw
        { id := "1", type := "posts",
          relationships? := some [("self",
            { data? := some (.one ⟨"1", "posts"⟩) })],
          denormalizing := true })) := by
  have h := C10_theorem
    { id := "1", type := "posts",
      relationships? := some [("self", { data? := some (.one ⟨"1", "posts"⟩) })] }
    [{ id := "1", type := "posts",
       attributes? := some [("title", JVal.str "shadowed copy")] }]
  exact ⟨h.1 ⟨"1", "posts"⟩ rfl rfl,
    h.2 { id := "1", type := "posts",
          attributes? := some [("title", JVal.str "shadowed copy")] }
      (List.mem_cons_self _ _) rfl
      [("self", { data? := some (.one ⟨"1", "posts"⟩) })] "self"
      { data? := some (.one ⟨"1", "posts"⟩) } rfl rfl (by simp) (by simp) rfl⟩

/-- Flattening relationship slots preserves their names. -/
theorem flattenSlots_map_fst (slots : List (String × DSlot)) :
    (flattenSlots slots).map Prod.fst = slots.map Prod.fst := by
  induction slots with
  | nil => rfl
  | cons e rest ih =>
      obtain ⟨k, s⟩ := e
      cases s <;> simp [flattenSlots, ih]

/-- Each slot's flattened value appears under its name. -/
theorem flattenSlots_mem (slots : List (String × DSlot)) (k : String)
    (s : DSlot) (h : (k, s) ∈ slots) :
    (k, s.flatValue) ∈ flattenSlots slots := by
  induction slots with
  | nil => cases h
  | cons e rest ih =>
      obtain ⟨k0, s0⟩ := e
      rcases List.mem_cons.mp h with he | hrest
      · rw [Prod.mk.injEq] at he
        obtain ⟨hk, hs⟩ := he
        subst hk
        subst hs
        cases s <;> exact List.mem_cons_self _ _
      · cases s0 <;> exact List.mem_cons_of_mem _ (ih hrest)

/-- The rest-spread never contains a `links` key. -/
theorem getField_restFields_links (c : ResourceCore) :
    getField (restFields c) "links" = none := by
  rcases c with ⟨t, _, _, _, _, mt, d⟩
  cases t <;> cases mt <;> cases d <;> simp [restFields, getField]

/-- The rest-spread never contains an `attributes` key. -/
theorem getField_restFields_attributes (c : ResourceCore) :
    getField (restFields c) "attributes" = none := by
  rcases c with ⟨t, _, _, _, _, mt, d⟩
  cases t <;> cases mt <;> cases d <;> simp [restFields, getField]

/-- The rest-spread never contains a `relationships` key. -/
theorem getField_restFields_relationships (c : ResourceCore) :
    getField (restFields c) "relationships" = none := by
  rcases c with ⟨t, _, _, _, _, mt, d⟩
  cases t <;> cases mt <;> cases d <;> simp [restFields, getField]

/-- The rest-spread carries the resource's `meta` member verbatim. -/
theorem getField_restFields_meta (c : ResourceCore) :
    getField (restFields c) "meta" = c.meta? := by
  rcases c with ⟨t, _, _, _, _, mt, d⟩
  cases t <;> cases mt <;> cases d <;> simp [restFields, getField]

/-- C5 counterexample: the claim says `links`, `meta`, `attributes` and the
raw `relationships` envelope keys are all dropped from the top level of a
flattened resource, but `meta` is not in the destructuring
`\x7battributes, relationships, links, ...restResource\x7d`, so it survives
at the top level. -/
theorem C5_counterexample :
    getField (flattenResource (.node
        { id := "1", type := "posts",
          attributes? := some [("title", JVal.str "A")],
          links? := some (JVal.str "L"),
          meta? := some (JVal.str "m") } [])).fieldsOf "meta"
      = some (JVal.str "m") := by
  simp [flattenResource, flattenSlots, restFields, attrFields, mergeFields,
    setField, getField, JVal.fieldsOf]

/-- C5 (amended): flatten lifts `attributes` and the recursively flattened
relationships (arrays element-wise, singular values directly, each assigned
under the relationship's name) to the top level beside the remaining
resource fields, and the `links`, `attributes` and raw `relationships`
envelope keys are dropped from the top level — but `meta` is NOT dropped: it
survives at the top level exactly as on the resource (the destructuring
removes only `attributes`, `relationships` and `links`).  The
non-collision hypotheses rule out attribute/relationship names shadowing the
envelope keys, as the spreads overwrite left to right. -/
theorem C5_amended (core : ResourceCore) (slots : List (String × DSlot))
    (hnds : (slots.map Prod.fst).Nodup)
    (hnda : ((core.attributes?.getD []).map Prod.fst).Nodup) :
    (∀ k v, (k, v) ∈ core.attributes?.getD [] → k ∉ slots.map Prod.fst →
      getField (flattenResource (.node core slots)).fieldsOf k = some v) ∧
    (∀ k s, (k, s) ∈ slots →
      getField (flattenResource (.node core slots)).fieldsOf k =
        some s.flatValue) ∧
    ("links" ∉ (core.attributes?.getD []).map Prod.fst →
      "links" ∉ slots.map Prod.fst →
      getField (flattenResource (.node core slots)).fieldsOf "links" = none) ∧
    ("attributes" ∉ (core.attributes?.getD []).map Prod.fst →
      "attributes" ∉ slots.map Prod.fst →
      getField (flattenResource (.node core slots)).fieldsOf "attributes"
        = none) ∧
    ("relationships" ∉ (core.attributes?.getD []).map Prod.fst →
      "relationships" ∉ slots.map Prod.fst →
      getField (flattenResource (.node core slots)).fieldsOf "relationships"
        = none) ∧
    ("meta" ∉ (core.attributes?.getD []).map Prod.fst →
      "meta" ∉ slots.map Prod.fst →
      getField (flattenResource (.node core slots)).fieldsOf "meta"
        = core.meta?) := by
  have hout : (flattenResource (.node core slots)).fieldsOf =
      mergeFields (mergeFields (restFields core) (attrFields core))
        (flattenSlots slots) := by
    simp [flattenResource, JVal.fieldsOf]
  have hkeys : (flattenSlots slots).map Prod.fst = slots.map Prod.fst :=
    flattenSlots_map_fst slots
  refine ⟨?_, ?_, ?_, ?_, ?_, ?_⟩
  · intro k v hmem hks
    rw [hout, getField_mergeFields_of_not_mem _ _ _ (hkeys ▸ hks)]
    exact getField_mergeFields_of_mem _ _ _ _ hnda hmem
  · intro k s hmem
    rw [hout]
    exact getField_mergeFields_of_mem _ _ _ _ (hkeys ▸ hnds)
      (flattenSlots_mem slots k s hmem)
  · intro ha hs
    rw [hout, getField_mergeFields_of_not_mem _ _ _ (hkeys ▸ hs),
      getField_mergeFields_of_not_mem _ _ _
        (show "links" ∉ (attrFields core).map Prod.fst from ha)]
    exact getField_restFields_links core
  · intro ha hs
    rw [hout, getField_mergeFields_of_not_mem _ _ _ (hkeys ▸ hs),
      getField_mergeFields_of_not_mem _ _ _
        (show "attributes" ∉ (attrFields core).map Prod.fst from ha)]
    exact getField_restFields_attributes core
  · intro ha hs
    rw [hout, getField_mergeFields_of_not_mem _ _ _ (hkeys ▸ hs),
      getField_mergeFields_of_not_mem _ _ _
        (show "relationships" ∉ (attrFields core).map Prod.fst from ha)]
    exact getField_restFields_relationships core
  · intro ha hs
    rw [hout, getField_mergeFields_of_not_mem _ _ _ (hkeys ▸ hs),
      getField_mergeFields_of_not_mem _ _ _
        (show "meta" ∉ (attrFields core).map Prod.fst from ha)]
    exact getField_restFields_meta core

/-- C5 amended witness: a concrete denormalized resource with an attribute,
a relationship, `links` and `meta` — the attribute and the flattened
relationship are lifted, `links`/`attributes`/`relationships` are gone from
the top level, and `meta` survives. -/
theorem C5_amended_witness :
    getField (flattenResource (.node
        { id := "1", type := "posts",
          attributes? := some [("title", JVal.str "A")],
          links? := some (JVal.str "L"),
          meta? := some (JVal.str "m") }
        [("author", DSlot.dnull)])).fieldsOf "title" = some (JVal.str "A") ∧
    getField (flattenResource (.node
        { id := "1", type := "posts",
          attributes? := some [("title", JVal.str "A")],
          links? := some (JVal.str "L"),
          meta? := some (JVal.str "m") }
        [("author", DSlot.dnull)])).fieldsOf "author" = some JVal.null ∧
    getField (flattenResource (.node
        { id := "1", type := "posts",
          attributes? := some [("title", JVal.str "A")],
          links? := some (JVal.str "L"),
          meta? := some (JVal.str "m") }
        [("author", DSlot.dnull)])).fieldsOf "links" = none ∧
    getField (flattenResource (.node
        { id := "1", type := "posts",
          attributes? := some [("title", JVal.str "A")],
          links? := some (JVal.str "L"),
          meta? := some (JVal.str "m") }
        [("author", DSlot.dnull)])).fieldsOf "meta" = some (JVal.str "m") := by
  have h := C5_amended
    { id := "1", type := "posts",
      attributes? := some [("title", JVal.str "A")],
      links? := some (JVal.str "L"),
      meta? := some (JVal.str "m") }
    [("author", DSlot.dnull)] (by simp) (by simp)
  exact ⟨h.1 "title" (JVal.str "A") (by simp) (by simp),
    h.2.1 "author" DSlot.dnull (by simp),
    h.2.2.1 (by simp) (by simp),
    h.2.2.2.2.2 (by simp) (by simp)⟩

/-- A field value is structurally smaller than its field list. -/
theorem sizeOf_getField (f : List (String × JVal)) (k : String) (v : JVal)
    (h : getField f k = some v) : sizeOf v < sizeOf f := by
  induction f with
  | nil => simp [getField] at h
  | cons kv rest ih =>
      obtain ⟨k', v'⟩ := kv
      by_cases hk : k' = k
      · simp only [getField, hk, if_true, Option.some.injEq] at h
        subst h
        simp
        omega
      · simp only [getField, hk, if_false] at h
        have := ih h
        simp
        omega

/-- Inversion for a present field. -/
theorem OptFieldLe_some_inv {o : Option JVal} {v : JVal}
    (h : OptFieldLe (some v) o) : ∃ w, o = some w ∧ JLe v w := by
  cases h
  exact ⟨_, rfl, by assumption⟩

/-- `JLe` is reflexive (auxiliary size-bounded form). -/
theorem JLe_refl_aux : ∀ n (v : JVal), sizeOf v ≤ n → JLe v v := by
  intro n
  induction n with
  | zero =>
      intro v hv
      exfalso
      cases v <;> simp at hv
  | succ n ihn =>
      intro v hv
      cases v with
      | null => exact .null
      | bool b => exact .bool b
      | num m => exact .num m
      | str s => exact .str s
      | arr xs =>
          refine .arr (List.forall₂_same.mpr (fun x hx => ?_))
          refine ihn x ?_
          have := List.sizeOf_lt_of_mem hx
          simp at hv
          omega
      | obj f =>
          refine .obj (fun k => ?_)
          cases hf : getField f k with
          | none => exact .none _
          | some v =>
              refine .some (ihn v ?_)
              have := sizeOf_getField f k v hf
              simp at hv
              omega

/-- `JLe` is reflexive. -/
theorem JLe_refl (v : JVal) : JLe v v := JLe_refl_aux (sizeOf v) v le_rfl

/-- `JLe` preserves the value's shape test. -/
theorem JLe_isObjectLike {v w : JVal} (h : JLe v w) :
    v.isObjectLike = w.isObjectLike := by
  cases h <;> rfl

/-- `JLe` is transitive (auxiliary size-bounded form). -/
theorem JLe_trans_aux :
    ∀ n (u v w : JVal), sizeOf u ≤ n → JLe u v → JLe v w → JLe u w := by
  intro n
  induction n with
  | zero =>
      intro u v w hu
      exfalso
      cases u <;> simp at hu
  | succ n ihn =>
      intro u v w hu h1 h2
      cases h1 with
      | null => exact h2
      | bool b => exact h2
      | num m => exact h2
      | str s => exact h2
      | arr hf =>
          cases h2 with
          | arr hg =>
              rename_i xs ys zs
              refine .arr ?_
              have hsz : ∀ x ∈ xs, sizeOf x ≤ n := by
                intro x hx
                have h1 := List.sizeOf_lt_of_mem hx
                simp at hu
                omega
              clear hu
              induction xs generalizing ys zs with
              | nil =>
                  cases hf
                  cases hg
                  exact .nil
              | cons x xs' ihx =>
                  cases hf with
                  | cons hxy hf' =>
                      cases hg with
                      | cons hyz hg' =>
                          refine List.Forall₂.cons ?_ ?_
                          · exact ihn x _ _ (hsz x (List.mem_cons_self _ _))
                              hxy hyz
                          · exact ihx hf' hg'
                              (fun y hy => hsz y (List.mem_cons_of_mem _ hy))
      | obj hf =>
          cases h2 with
          | obj hg =>
              refine .obj (fun k => ?_)
              cases ha : getField _ k with
              | none => exact .none _
              | some a =>
                  obtain ⟨b, hb, hab⟩ := OptFieldLe_some_inv (ha ▸ hf k)
                  obtain ⟨c, hc, hbc⟩ := OptFieldLe_some_inv (hb ▸ hg k)
                  rw [hc]
                  refine .some (ihn a b c ?_ hab hbc)
                  have := sizeOf_getField _ k a ha
                  simp at hu
                  omega

/-- `JLe` is transitive. -/
theorem JLe_trans {u v w : JVal} (h1 : JLe u v) (h2 : JLe v w) : JLe u w :=
  JLe_trans_aux (sizeOf u) u v w le_rfl h1 h2

/-- Overwriting a field with the value it already holds is the identity. -/
theorem setField_getField_self (l : List (String × JVal)) (k : String)
    (v : JVal) (h : getField l k = some v) : setField l k v = l := by
  induction l with
  | nil => simp [getField] at h
  | cons kv rest ih =>
      obtain ⟨k', v'⟩ := kv
      by_cases hk : k' = k
      · simp only [getField, hk, if_true, Option.some.injEq] at h
        simp [setField, hk, h]
      · simp only [getField, hk, if_false] at h
        simp [setField, hk, ih h]

/-- The null-patch pass only grows values along the extension order: it
inserts explicit `null`s for missing selected fields and recursively patches
present object-like fields, never removing or changing anything else. -/
theorem nullPatch_grow :
    (∀ (fuel : Nat) (fm : FragmentMap) (sels? : Option (List Selection))
        (v : JVal), JLe v (insertNullsForAnyOmittedFields fuel fm sels? v)) ∧
    (∀ (fuel : Nat) (fm : FragmentMap) (sels : List Selection) (cur : JVal),
        JLe cur (goSelections fuel fm sels cur)) ∧
    (∀ (fuel : Nat) (fm : FragmentMap) (node : Selection) (cur : JVal),
        JLe cur (applySelection fuel fm node cur)) ∧
    (∀ (fuel : Nat) (fm : FragmentMap) (sels : List Selection)
        (xs : List JVal),
        List.Forall₂ JLe xs (insertNullsList fuel fm sels xs)) := by
  refine insertNullsForAnyOmittedFields.mutual_induct
    (fun fuel fm sels? v => JLe v (insertNullsForAnyOmittedFields fuel fm sels? v))
    (fun fuel fm sels cur => JLe cur (goSelections fuel fm sels cur))
    (fun fuel fm node cur => JLe cur (applySelection fuel fm node cur))
    (fun fuel fm sels xs => List.Forall₂ JLe xs (insertNullsList fuel fm sels xs))
    ?_ ?_ ?_ ?_ ?_ ?_ ?_ ?_ ?_ ?_ ?_ ?_ ?_ ?_ ?_ ?_ ?_ ?_ ?_
  · intro x x1 current
    simp only [insertNullsForAnyOmittedFields]
    exact JLe_refl current
  · intro x x1 val
    simp only [insertNullsForAnyOmittedFields]
    exact .null
  · intro x x1 val b
    simp only [insertNullsForAnyOmittedFields]
    exact .bool b
  · intro x x1 val n
    simp only [insertNullsForAnyOmittedFields]
    exact .num n
  · intro x x1 val s
    simp only [insertNullsForAnyOmittedFields]
    exact .str s
  · intro fuel fm sels xs h4
    simp only [insertNullsForAnyOmittedFields]
    exact .arr h4
  · intro fuel fm sels fields h2
    simp only [insertNullsForAnyOmittedFields]
    exact h2
  · intro x x1 current
    simp only [goSelections]
    exact JLe_refl current
  · intro fuel fm node rest current h3 h2
    simp only [goSelections]
    exact JLe_trans h3 h2
  · intro fuel fm sub current h1
    simp only [applySelection]
    exact h1
  · intro x a current
    simp only [applySelection]
    exact JLe_refl current
  · intro fuel fm n current h1
    simp only [applySelection]
    exact h1
  · intro fuel fm a a1 subsel? fields
    simp only [applySelection, if_pos rfl]
    exact JLe_refl _
  · intro fuel fm name a a1 subsel? fields hname hget
    simp only [applySelection, if_neg hname, hget]
    refine .obj (fun k => ?_)
    cases hk : getField fields k with
    | none => exact .none _
    | some v =>
        have hkn : k ≠ name := fun h => by rw [h, hget] at hk; cases hk
        rw [getField_setField_other fields name k JVal.null hkn, hk]
        exact .some (JLe_refl v)
  · intro fuel fm name a a1 subsel? fields hname value hget hcond h1
    simp only [applySelection, if_neg hname, hget, hcond, if_true]
    refine .obj (fun k => ?_)
    by_cases hkn : k = name
    · subst hkn
      rw [hget, getField_setField_self fields k
        (insertNullsForAnyOmittedFields fuel fm subsel? value)]
      exact .some h1
    · cases hk : getField fields k with
      | none => exact .none _
      | some v =>
          rw [getField_setField_other fields name k _ hkn, hk]
          exact .some (JLe_refl v)
  · intro fuel fm name a a1 subsel? fields hname value hget hcond
    simp only [applySelection, if_neg hname, hget, hcond, if_false]
    exact JLe_refl _
  · intro fuel fm name a a1 subsel? current hobj
    cases current with
    | obj fields => exact absurd rfl (hobj fields)
    | null => simp only [applySelection]; exact JLe_refl _
    | bool b => simp only [applySelection]; exact JLe_refl _
    | num n => simp only [applySelection]; exact JLe_refl _
    | str s => simp only [applySelection]; exact JLe_refl _
    | arr xs => simp only [applySelection]; exact JLe_refl _
  · intro x x1 x2
    simp only [insertNullsList]
    exact .nil
  · intro fuel fm sels x xs h1 h4
    simp only [insertNullsList]
    exact .cons h1 h4

/-- Once a value extends the output of the null-patch pass (for the same
selection set, fragment map and fuel), the pass fixes it: every selected
field is already present, so nothing changes.  Idempotence is the instance
`w := ` the pass's own output. -/
theorem nullPatch_stable :
    (∀ (fuel : Nat) (fm : FragmentMap) (sels? : Option (List Selection))
        (v w : JVal), JLe (insertNullsForAnyOmittedFields fuel fm sels? v) w →
        insertNullsForAnyOmittedFields fuel fm sels? w = w) ∧
    (∀ (fuel : Nat) (fm : FragmentMap) (sels : List Selection) (cur w : JVal),
        JLe (goSelections fuel fm sels cur) w → goSelections fuel fm sels w = w) ∧
    (∀ (fuel : Nat) (fm : FragmentMap) (node : Selection) (cur w : JVal),
        JLe (applySelection fuel fm node cur) w →
        applySelection fuel fm node w = w) ∧
    (∀ (fuel : Nat) (fm : FragmentMap) (sels : List Selection)
        (xs ws : List JVal),
        List.Forall₂ JLe (insertNullsList fuel fm sels xs) ws →
        insertNullsList fuel fm sels ws = ws) := by
  have grow := nullPatch_grow
  refine insertNullsForAnyOmittedFields.mutual_induct
    (fun fuel fm sels? v => ∀ w,
      JLe (insertNullsForAnyOmittedFields fuel fm sels? v) w →
      insertNullsForAnyOmittedFields fuel fm sels? w = w)
    (fun fuel fm sels cur => ∀ w,
      JLe (goSelections fuel fm sels cur) w → goSelections fuel fm sels w = w)
    (fun fuel fm node cur => ∀ w,
      JLe (applySelection fuel fm node cur) w →
      applySelection fuel fm node w = w)
    (fun fuel fm sels xs => ∀ ws,
      List.Forall₂ JLe (insertNullsList fuel fm sels xs) ws →
      insertNullsList fuel fm sels ws = ws)
    ?_ ?_ ?_ ?_ ?_ ?_ ?_ ?_ ?_ ?_ ?_ ?_ ?_ ?_ ?_ ?_ ?_ ?_ ?_
  · intro x x1 current w _
    simp only [insertNullsForAnyOmittedFields]
  · intro x x1 val w h
    simp only [insertNullsForAnyOmittedFields] at h
    cases h
    simp only [insertNullsForAnyOmittedFields]
  · intro x x1 val b w h
    simp only [insertNullsForAnyOmittedFields] at h
    cases h
    simp only [insertNullsForAnyOmittedFields]
  · intro x x1 val n w h
    simp only [insertNullsForAnyOmittedFields] at h
    cases h
    simp only [insertNullsForAnyOmittedFields]
  · intro x x1 val s w h
    simp only [insertNullsForAnyOmittedFields] at h
    cases h
    simp only [insertNullsForAnyOmittedFields]
  · intro fuel fm sels xs h4 w h
    simp only [insertNullsForAnyOmittedFields] at h
    cases h with
    | arr hys =>
        simp only [insertNullsForAnyOmittedFields]
        rename_i ys
        rw [h4 ys hys]
  · intro fuel fm sels fields h2 w h
    simp only [insertNullsForAnyOmittedFields] at h
    have hshape : JLe (JVal.obj fields) w :=
      JLe_trans (grow.2.1 fuel fm sels (JVal.obj fields)) h
    cases hshape with
    | obj _ =>
        rename_i g hx
        simp only [insertNullsForAnyOmittedFields]
        exact h2 (JVal.obj g) h
  · intro x x1 current w _
    simp only [goSelections]
  · intro fuel fm node rest current h3 h2 w h
    simp only [goSelections] at h ⊢
    have ha : applySelection fuel fm node w = w :=
      h3 w (JLe_trans
        (grow.2.1 fuel fm rest (applySelection fuel fm node current)) h)
    rw [ha]
    exact h2 w h
  · intro fuel fm sub current h1 w h
    simp only [applySelection] at h ⊢
    exact h1 w h
  · intro x a current w _
    simp only [applySelection]
  · intro fuel fm n current h1 w h
    simp only [applySelection] at h ⊢
    exact h1 w h
  · intro fuel fm a a1 subsel? fields w h
    simp only [applySelection, if_pos rfl] at h
    cases h with
    | obj _ => simp [applySelection]
  · intro fuel fm name a a1 subsel? fields hname hget w h
    simp only [applySelection, if_neg hname, hget] at h
    cases h with
    | obj hof =>
        rename_i g
        have hsome := hof name
        rw [getField_setField_self fields name JVal.null] at hsome
        obtain ⟨w', hw', hnw'⟩ := OptFieldLe_some_inv hsome
        cases hnw'
        simp only [applySelection, if_neg hname, hw']
        simp [JVal.isObjectLike]
  · intro fuel fm name a a1 subsel? fields hname value hget hcond h1 w h
    simp only [applySelection, if_neg hname, hget, hcond, if_true] at h
    cases h with
    | obj hof =>
        rename_i g
        have hsome := hof name
        rw [getField_setField_self fields name
          (insertNullsForAnyOmittedFields fuel fm subsel? value)] at hsome
        obtain ⟨w', hw', hPw'⟩ := OptFieldLe_some_inv hsome
        have hvP : JLe value (insertNullsForAnyOmittedFields fuel fm subsel? value) :=
          grow.1 fuel fm subsel? value
        have hiso : w'.isObjectLike = value.isObjectLike := by
          rw [← JLe_isObjectLike hPw', ← JLe_isObjectLike hvP]
        have hcond' : (w'.isObjectLike && subsel?.isSome) = true := by
          rw [hiso]
          exact hcond
        simp only [applySelection, if_neg hname, hw', hcond', if_true]
        rw [h1 w' hPw']
        rw [setField_getField_self g name w' hw']
  · intro fuel fm name a a1 subsel? fields hname value hget hcond w h
    simp only [applySelection, if_neg hname, hget, hcond, if_false] at h
    cases h with
    | obj hof =>
        rename_i g
        have hsome := hof name
        rw [hget] at hsome
        obtain ⟨w', hw', hvw'⟩ := OptFieldLe_some_inv hsome
        have hiso : w'.isObjectLike = value.isObjectLike :=
          (JLe_isObjectLike hvw').symm
        have hcond' : ¬((w'.isObjectLike && subsel?.isSome) = true) := by
          rw [hiso]
          exact hcond
        simp only [applySelection, if_neg hname, hw', hcond', if_false]
        simp
  · intro fuel fm name a a1 subsel? current hobj w h
    cases current with
    | obj fields => exact absurd rfl (hobj fields)
    | null =>
        simp only [applySelection] at h
        cases h
        simp only [applySelection]
    | bool b =>
        simp only [applySelection] at h
        cases h
        simp only [applySelection]
    | num n =>
        simp only [applySelection] at h
        cases h
        simp only [applySelection]
    | str s =>
        simp only [applySelection] at h
        cases h
        simp only [applySelection]
    | arr xs =>
        simp only [applySelection] at h
        cases h
        simp only [applySelection]
  · intro x x1 x2 ws h
    simp only [insertNullsList] at h
    cases h
    simp only [insertNullsList]
  · intro fuel fm sels x xs h1 h4 ws h
    simp only [insertNullsList] at h
    cases h with
    | cons hy hys =>
        rename_i y ys
        simp only [insertNullsList]
        rw [h1 y hy, h4 ys hys]

/-- C6: the null-patch pass (insertNullsForAnyOmittedFields, traversing the
selection set including inline fragments and named-fragment spreads) is
idempotent: running it a second time on its own output — for the same
selection set, fragment map and recursion allowance — changes nothing. -/
theorem C6_theorem (fuel : Nat) (fm : FragmentMap)
    (sels? : Option (List Selection)) (v : JVal) :
    insertNullsForAnyOmittedFields fuel fm sels?
      (insertNullsForAnyOmittedFields fuel fm sels? v) =
    insertNullsForAnyOmittedFields fuel fm sels? v :=
  nullPatch_stable.1 fuel fm sels? v
    (insertNullsForAnyOmittedFields fuel fm sels? v) (JLe_refl _)

/-- A response that is `ok`, or whose status is 404, never throws: the
classification returns a value. -/
theorem resolveFetchResult_ok_of (tnn : String → String) (r : HttpResponse)
    (h : r.ok = true ∨ r.status = 404) :
    ∃ v, resolveFetchResult tnn r = .ok v := by
  by_cases hok : r.ok = true
  · by_cases hc : (r.status == 204 || r.contentLength0) = true
    · exact ⟨JVal.obj [], by simp [resolveFetchResult, hok, hc]⟩
    · exact ⟨jsonapiResponseTransformer tnn r.body,
        by simp [resolveFetchResult, hok, hc]⟩
  · have h404 : r.status = 404 := by
      cases h with
      | inl h1 => exact absurd h1 hok
      | inr h2 => exact h2
    exact ⟨JVal.null, by simp [resolveFetchResult, hok, h404]⟩

/-- When every response of a list is `ok` or a 404, the whole run succeeds
and yields, in order, each node's own classified result. -/
theorem runFetchNodes_forall_ok (tnn : String → String) :
    ∀ rs : List HttpResponse,
      (∀ r ∈ rs, r.ok = true ∨ r.status = 404) →
      ∃ vs, runFetchNodes tnn rs = .ok vs ∧
        List.Forall₂ (fun r v => resolveFetchResult tnn r = .ok v) rs vs := by
  intro rs
  induction rs with
  | nil => exact fun _ => ⟨[], by simp [runFetchNodes], .nil⟩
  | cons r rest ih =>
      intro h
      obtain ⟨v, hv⟩ := resolveFetchResult_ok_of tnn r (h r (by simp))
      obtain ⟨vs, hvs, hfa⟩ := ih (fun x hx => h x (by simp [hx]))
      refine ⟨v :: vs, ?_, .cons hv hfa⟩
      simp [runFetchNodes, hv, hvs]

/-- Successful runs concatenate. -/
theorem runFetchNodes_append (tnn : String → String)
    (xs ys : List HttpResponse) (vs ws : List JVal)
    (hx : runFetchNodes tnn xs = .ok vs)
    (hy : runFetchNodes tnn ys = .ok ws) :
    runFetchNodes tnn (xs ++ ys) = .ok (vs ++ ws) := by
  induction xs generalizing vs with
  | nil =>
      simp only [runFetchNodes] at hx
      cases hx
      simpa using hy
  | cons r rest ih =>
      simp only [runFetchNodes] at hx
      cases hr : resolveFetchResult tnn r with
      | error e => rw [hr] at hx; cases hx
      | ok v =>
          rw [hr] at hx
          cases hrest : runFetchNodes tnn rest with
          | error e => rw [hrest] at hx; cases hx
          | ok us =>
              rw [hrest] at hx
              cases hx
              simp [runFetchNodes, hr, ih us hrest]

/-- C9: a fetch node whose HTTP response has status 404 resolves to `null`
instead of throwing, and the run of the other fetch nodes continues
normally: when every sibling response is itself `ok` (successful) or a 404,
the whole operation succeeds with `null` at the 404 node's position and
each sibling's own classified result (its transformed data) at its
position. -/
theorem C9_theorem (tnn : String → String)
    (pre post : List HttpResponse) (notFound : HttpResponse)
    (hnf : notFound.ok = false) (h404 : notFound.status = 404)
    (hsib : ∀ r ∈ pre ++ post, r.ok = true ∨ r.status = 404) :
    ∃ vs ws,
      runFetchNodes tnn (pre ++ notFound :: post) =
        .ok (vs ++ JVal.null :: ws) ∧
      List.Forall₂ (fun r v => resolveFetchResult tnn r = .ok v) pre vs ∧
      List.Forall₂ (fun r v => resolveFetchResult tnn r = .ok v) post ws := by
  obtain ⟨vs, hvs, hfa1⟩ := runFetchNodes_forall_ok tnn pre
    (fun r hr => hsib r (List.mem_append_left _ hr))
  obtain ⟨ws, hws, hfa2⟩ := runFetchNodes_forall_ok tnn post
    (fun r hr => hsib r (List.mem_append_right _ hr))
  have hnull : resolveFetchResult tnn notFound = .ok JVal.null := by
    simp [resolveFetchResult, hnf, h404]
  have hcons : runFetchNodes tnn (notFound :: post) = .ok (JVal.null :: ws) := by
    simp [runFetchNodes, hnull, hws]
  exact ⟨vs, ws,
    runFetchNodes_append tnn pre (notFound :: post) vs (JVal.null :: ws)
      hvs hcons, hfa1, hfa2⟩

/-- Concrete instance of C9: one successful sibling node followed by a 404
node — the run succeeds, with `null` at the 404 position. -/
theorem C9_theorem_witness :
    ∃ vs ws,
      runFetchNodes (fun s => s)
        ([{ ok := true, status := 200,
            body := { data := .one { id := "1", type := "posts" } } }] ++
          { ok := false, status := 404 } :: ([] : List HttpResponse)) =
        .ok (vs ++ JVal.null :: ws) ∧
      List.Forall₂
        (fun r v => resolveFetchResult (fun s => s) r = .ok v)
        [{ ok := true, status := 200,
           body := { data := .one { id := "1", type := "posts" } } }] vs ∧
      List.Forall₂
        (fun r v => resolveFetchResult (fun s => s) r = .ok v)
        ([] : List HttpResponse) ws :=
  C9_theorem (fun s => s)
    [{ ok := true, status := 200,
       body := { data := .one { id := "1", type := "posts" } } }]
    [] { ok := false, status := 404 } rfl rfl
    (by
      intro r hr
      simp only [List.append_nil, List.mem_singleton] at hr
      subst hr
      exact Or.inl rfl)
